import Mathlib

/-!
Formal model of the carpet-plot core of mri-tools
(src/mri_tools/viz/fmriplots_modAT.py), together with proofs about the
label-band partition, the voxel-row reordering produced with np.argsort,
the decimation / tick-label logic of fmricarpetplot, and the cutoff-list
handling of confoundplot.

Modelling conventions.

The 4D functional volume is represented flattened along its three spatial
axes (C order, the order used by numpy boolean-mask indexing): a value of
type List (List Rat), one row (time series) per voxel.  The 3D
segmentation is represented by the correspondingly flattened List Int of
labels.  Real-valued samples are modelled by Rat: no claim here depends
on floating-point rounding.  numpy integer arrays are modelled by lists
of unbounded integers; the labels and ranks involved stay far below any
integer-width boundary, so no wrap-around modelling is needed.

np.argsort is called by the source with its default kind, quicksort,
which numpy implements as an introsort over the index array: median-of-3
Hoare partitioning, a switch to insertion sort on ranges of at most 16
elements, and a depth-limited switch to heapsort.  The functions
scanUp / scanDown / hoareLoop / partitionR / insInner / insSteps /
siftLoop / buildFrom / extractLoop / sortRange below transcribe that
algorithm (numpy npysort aquicksort / aheapsort for integer keys);
argsortNumpy assembles them exactly as np.argsort does, with the index
array initialised to 0..n-1 and depth limit 2 * floor(log2 n).  Loops
whose termination relies on sentinel values carry a fuel argument that is
always instantiated large enough that the fuel never runs out (this is
proved where the lemmas need it).

The external detrending routine nilearn.signal.clean is, as in the
specification, an external collaborator with the contract that it
returns data of the same shape; it is modelled as an explicit function
parameter constrained by CleanContract.
-/

namespace MriTools

/-! ### Total list access helpers -/

/-- Total read of a list of naturals at an index (out of range gives 0),
used to model C pointer reads into the tosort index array. -/
def lget (t : List ℕ) (i : ℕ) : ℕ := t.getD i 0

/-- Exchange of two positions of the index array, as numpy INTP_SWAP:
both reads happen before both writes. -/
def lswap (t : List ℕ) (i j : ℕ) : List ℕ :=
  (t.set i (lget t j)).set j (lget t i)

/-- Key of the element referenced from position i of the tosort array:
v[tosort[i]] in the C source. -/
def keyAt (v t : List ℕ) (i : ℕ) : ℕ := v.getD (lget t i) 0

/-! ### numpy aquicksort: scan loops of the Hoare partition -/

/-- The C loop: do ++pi; while (v[tosort[pi]] < vp).  Returns the final
value of pi.  Fuel-indexed; the callers pass enough fuel. -/
def scanUp (v : List ℕ) (vp : ℕ) (t : List ℕ) : ℕ → ℕ → ℕ
  | pi, 0 => pi + 1
  | pi, f + 1 =>
    if keyAt v t (pi + 1) < vp then scanUp v vp t (pi + 1) f else pi + 1

/-- The C loop: do --pj; while (vp < v[tosort[pj]]). -/
def scanDown (v : List ℕ) (vp : ℕ) (t : List ℕ) : ℕ → ℕ → ℕ
  | pj, 0 => pj - 1
  | pj, f + 1 =>
    if vp < keyAt v t (pj - 1) then scanDown v vp t (pj - 1) f else pj - 1

/-- The exchange loop of the Hoare partition: scan up, scan down, stop
when the scans cross, otherwise swap and continue.  Returns the final
tosort array and the crossing position pi. -/
def hoareLoop (v : List ℕ) (vp : ℕ) : List ℕ → ℕ → ℕ → ℕ → List ℕ × ℕ
  | t, pi, _, 0 => (t, pi)
  | t, pi, pj, f + 1 =>
    let pi1 := scanUp v vp t pi t.length
    let pj1 := scanDown v vp t pj t.length
    if pj1 ≤ pi1 then (t, pi1)
    else hoareLoop v vp (lswap t pi1 pj1) pi1 pj1 f

/-- One partition step of numpy aquicksort on tosort range [pl, pr]:
median-of-3 pivot selection, pivot parked at pr-1, Hoare exchange loop,
final swap of the crossing position with the parked pivot.  Returns the
updated array and the pivot position. -/
def partitionR (v t : List ℕ) (pl pr : ℕ) : List ℕ × ℕ :=
  let pm := pl + (pr - pl) / 2
  let t1 := if keyAt v t pm < keyAt v t pl then lswap t pm pl else t
  let t2 := if keyAt v t1 pr < keyAt v t1 pm then lswap t1 pr pm else t1
  let t3 := if keyAt v t2 pm < keyAt v t2 pl then lswap t2 pm pl else t2
  let vp := keyAt v t3 pm
  let t4 := lswap t3 pm (pr - 1)
  let s := hoareLoop v vp t4 pl (pr - 1) t4.length
  (lswap s.1 s.2 (pr - 1), s.2)

/-! ### numpy aquicksort: insertion sort for small ranges -/

/-- Inner shifting loop of the argsort insertion sort.  The element with
index value vi (key vp) has been lifted out of position pl + d; elements
greater than it are shifted one place up until the insertion point is
found, where vi is written back. -/
def insInner (v : List ℕ) (vp vi pl : ℕ) : List ℕ → ℕ → List ℕ
  | t, 0 => t.set pl vi
  | t, d + 1 =>
    if vp < keyAt v t (pl + d) then
      insInner v vp vi pl (t.set (pl + d + 1) (lget t (pl + d))) d
    else t.set (pl + d + 1) vi

/-- First k insertion steps on range starting at pl: steps pi = pl+1 ..
pl+k of the C loop for (pi = pl + 1; pi <= pr; ++pi). -/
def insSteps (v : List ℕ) (pl : ℕ) : List ℕ → ℕ → List ℕ
  | t, 0 => t
  | t, k + 1 =>
    let t1 := insSteps v pl t k
    let pi := pl + k + 1
    let vi := lget t1 pi
    insInner v (v.getD vi 0) vi pl t1 (pi - pl)

/-- Argsort insertion sort of the tosort range [pl, pr] (numpy runs it on
ranges of at most 16 elements). -/
def insertionSortRange (v t : List ℕ) (pl pr : ℕ) : List ℕ :=
  insSteps v pl t (pr - pl)

/-! ### numpy aheapsort (argsort variant, 1-based on range [pl, pr]) -/

/-- Read of the 1-based heap cell a[k] = tosort[pl + k - 1]. -/
def hGet (t : List ℕ) (pl k : ℕ) : ℕ := lget t (pl + k - 1)

/-- Write of the 1-based heap cell a[k]. -/
def hSet (t : List ℕ) (pl k x : ℕ) : List ℕ := t.set (pl + k - 1) x

/-- Key of the 1-based heap cell a[k]. -/
def hKey (v t : List ℕ) (pl k : ℕ) : ℕ := v.getD (hGet t pl k) 0

/-- Sift-down loop of numpy aheapsort: the hole at i moves down towards
the larger child while that child has key above vtmp.  Returns the array
with promoted children and the final hole position. -/
def siftLoop (v : List ℕ) (pl vtmp : ℕ) : List ℕ → ℕ → ℕ → ℕ → ℕ → List ℕ × ℕ
  | t, i, _, _, 0 => (t, i)
  | t, i, j, n, f + 1 =>
    if j ≤ n then
      let j1 := if j < n ∧ hKey v t pl j < hKey v t pl (j + 1) then j + 1 else j
      if vtmp < hKey v t pl j1 then
        siftLoop v pl vtmp (hSet t pl i (hGet t pl j1)) j1 (2 * j1) n f
      else (t, i)
    else (t, i)

/-- One complete sift: lift a[l] out, run the sift-down loop from (i, j)
= (l, 2l), and write the lifted index at the final hole. -/
def sift (v : List ℕ) (pl : ℕ) (t : List ℕ) (tmp l n : ℕ) : List ℕ :=
  let s := siftLoop v pl (v.getD tmp 0) t l (2 * l) n (n + 1)
  hSet s.1 pl s.2 tmp

/-- Heap construction phase: sift the subtrees rooted at l, l-1, ..., 1.
Called with l = n / 2. -/
def buildFrom (v : List ℕ) (pl n : ℕ) : ℕ → List ℕ → List ℕ
  | 0, t => t
  | l + 1, t => buildFrom v pl n l (sift v pl t (hGet t pl (l + 1)) (l + 1) n)

/-- Extraction phase of aheapsort: while n > 1, move the root to cell n
and sift the former a[n] down from the root of the shrunk heap. -/
def extractLoop (v : List ℕ) (pl : ℕ) : ℕ → List ℕ → List ℕ
  | 0, t => t
  | 1, t => t
  | m + 2, t =>
    let tmp := hGet t pl (m + 2)
    let t1 := hSet t pl (m + 2) (hGet t pl 1)
    extractLoop v pl (m + 1) (sift v pl t1 tmp 1 (m + 1))

/-- numpy aheapsort of the tosort range [pl, pr]. -/
def heapsortRange (v t : List ℕ) (pl pr : ℕ) : List ℕ :=
  let n := pr + 1 - pl
  extractLoop v pl n (buildFrom v pl n (n / 2) t)

/-! ### numpy aquicksort main recursion -/

/-- Main introsort recursion of numpy aquicksort.  Ranges larger than
SMALL_QUICKSORT = 15 elements are partitioned (the smaller side is
processed first, as the C code pushes the larger side on its stack),
with the shared depth budget threaded through in processing order;
a range reached with exhausted depth budget is heapsorted; small ranges
are insertion sorted.  The fuel argument only bounds the recursion: the
callers pass fuel exceeding the range length, which never runs out. -/
def sortRange (v : List ℕ) : ℕ → List ℕ → ℕ → ℕ → ℤ → List ℕ × ℤ
  | 0, t, _, _, d => (t, d)
  | f + 1, t, pl, pr, d =>
    if 15 < pr - pl then
      if d < 0 then (heapsortRange v t pl pr, d - 1)
      else
        let s := partitionR v t pl pr
        let pi := s.2
        if pi - pl < pr - pi then
          let a := sortRange v f s.1 pl (pi - 1) (d - 1)
          sortRange v f a.1 (pi + 1) pr a.2
        else
          let a := sortRange v f s.1 (pi + 1) pr (d - 1)
          sortRange v f a.1 pl (pi - 1) a.2
    else (insertionSortRange v t pl pr, d)

/-- np.argsort with the default quicksort kind: introsort of the index
array 0..n-1 by the keys in v, depth limit 2 * floor(log2 n). -/
def argsortNumpy (v : List ℕ) : List ℕ :=
  let n := v.length
  (sortRange v (n + 1) (List.range n) 0 (n - 1) (2 * (Nat.log2 n : ℤ))).1

/-! ### Label bands (fmricarpetplot lines 126-141) -/

/-- Mask seg_labels > 100 and seg_labels < 200 (cortical gray matter). -/
def cortP (l : ℤ) : Bool := 100 < l ∧ l < 200

/-- Mask seg_labels > 30 and seg_labels < 100 (deep gray matter). -/
def deepP (l : ℤ) : Bool := 30 < l ∧ l < 100

/-- Mask seg_labels < 10 (white matter / CSF). -/
def wmP (l : ℤ) : Bool := l < 10

/-- Band of a (positive) label under the partition hard-coded in
fmricarpetplot, numbered in display order: 0 cortical GM, 1 deep GM,
2 cerebellum (exactly 255), 3 WM/CSF; none when the label matches no
band.  The four conditions are mutually exclusive, so the testing order
is immaterial. -/
def bandNum (l : ℤ) : Option ℕ :=
  if cortP l then some 0
  else if deepP l then some 1
  else if l = 255 then some 2
  else if wmP l then some 3
  else none

/-- Truth of a label lying in one of the four bands. -/
def inBand (l : ℤ) : Bool := (bandNum l).isSome

/-- np.unique: the sorted list of distinct values, here built by ordered
insertion.  Characterised below as the unique strictly-sorted list with
the same members. -/
def npUnique (l : List ℤ) : List ℤ :=
  l.foldr insOne []
where
  /-- Ordered duplicate-free insertion of one value. -/
  insOne (x : ℤ) : List ℤ → List ℤ
    | [] => [x]
    | y :: ys => if x < y then x :: y :: ys
                 else if x = y then y :: ys
                 else y :: insOne x ys

/-- The flattened positive-label list segmentation[segmentation > 0]. -/
def posLabels (seg : List ℤ) : List ℤ := seg.filter (fun l => decide (0 < l))

/-- Concatenated band label list cort_gm + deep_gm + cerebellum + wm_csf
built from the unique positive labels u; cerebellum is the constant
[255] (fmricarpetplot lines 130-134). -/
def labelsConcat (u : List ℤ) : List ℤ :=
  u.filter cortP ++ u.filter deepP ++ [255] ++ u.filter wmP

/-- Rank given to one voxel label by the assignment loop (lines 136-140):
newsegm starts at 0 and each label of the concatenated list writes its
position over the voxels carrying it, the last match winning. -/
def rankIn (labels : List ℤ) (sv : ℤ) : ℕ :=
  labels.enum.foldl (fun acc p => if sv = p.2 then p.1 else acc) 0

/-- Rank array newsegm for an already flattened positive-label list. -/
def newsegmOfPos (p : List ℤ) : List ℕ :=
  p.map (rankIn (labelsConcat (npUnique p)))

/-- Display permutation np.argsort(newsegm) for a flattened
positive-label list. -/
def orderOfPos (p : List ℤ) : List ℕ := argsortNumpy (newsegmOfPos p)

/-- Rank array newsegm of a segmentation. -/
def newsegm (seg : List ℤ) : List ℕ := newsegmOfPos (posLabels seg)

/-- Display row permutation order = np.argsort(newsegm) of a
segmentation. -/
def orderOf (seg : List ℤ) : List ℕ := orderOfPos (posLabels seg)

/-- Labels of the carpet rows read top to bottom: position j of the
displayed image shows the voxel order[j], whose label is the j-th entry
here. -/
def displayedLabels (seg : List ℤ) : List ℤ :=
  (orderOf seg).map (fun i => (posLabels seg).getD i 0)

/-- Band number sequence of the displayed rows (for in-band labels). -/
def displayBandRanks (seg : List ℤ) : List ℕ :=
  (displayedLabels seg).map (fun l => (bandNum l).getD 4)

/-! ### The voxel-time matrix and the rendering of fmricarpetplot -/

/-- A numpy 2D array: rows of rationals together with the column count
carried by the shape (so that the shape survives an empty row list). -/
structure NpMat where
  rows : List (List ℚ)
  ncols : ℕ

/-- Shape well-formedness: every row has the declared column count. -/
def NpMat.WF (m : NpMat) : Prop := ∀ r ∈ m.rows, r.length = m.ncols

/-- numpy transpose. -/
def NpMat.T (m : NpMat) : NpMat :=
  ⟨(List.range m.ncols).map (fun j => m.rows.map (fun r => r.getD j 0)),
   m.rows.length⟩

/-- Contract of the external detrending collaborator nilearn clean, as
stated by the specification: it returns same-shape data. -/
def CleanContract (f : NpMat → NpMat) : Prop :=
  ∀ m, (f m).ncols = m.ncols ∧ (f m).rows.length = m.rows.length

/-- The voxel-time matrix func_data[segmentation > 0].reshape(-1,
ntsteps): the rows of the voxels with positive label, in flattened
(C) order. -/
def dataMatrix (func : List (List ℚ)) (seg : List ℤ) : List (List ℚ) :=
  ((seg.zip func).filter (fun q => decide (0 < q.1))).map (fun q => q.2)

/-- Fancy row indexing m[order, :]. -/
def takeRows (rows : List (List ℚ)) (ord : List ℕ) : List (List ℚ) :=
  ord.map (fun i => rows.getD i [])

/-- Column decimation r[::2]. -/
def everySecond (r : List ℚ) : List ℚ :=
  (r.enum.filter (fun p => p.1 % 2 = 0)).map (fun p => p.2)

/-- Observable state of the rendered carpet panel: the shape and rows of
the array handed to imshow, the colormap, the clip range vmin/vmax, the
x ticks and their numeric values, and whether the x axis is labelled as
time (seconds) or as frame numbers.  String formatting of the labels is
cosmetic and not modelled. -/
structure CarpetRender where
  nrows : ℕ
  ncols : ℕ
  dispRows : List (List ℚ)
  cmap : String
  vmin : ℚ
  vmax : ℚ
  xlabelTime : Bool
  xticks : List ℕ
  xticklabels : List ℚ

/-- The fmricarpetplot pipeline (lines 108-203 of the source), from the
masked voxel-time matrix to the imshow arguments and tick labels.  The
detrending collaborator is the parameter cleanT.  The local variable
long_cutoff is modelled by an Option that is set (to 800) only on the
non-statistical branch, exactly as the Python local is only assigned
there; reading it unassigned on the time-label branch is the NameError
the Python call raises. -/
def fmricarpetplotM (cleanT : NpMat → NpMat) (ntsteps : ℕ)
    (func : List (List ℚ)) (seg : List ℤ) (stat : Bool)
    (map_range : Option (ℚ × ℚ)) (tr : Option ℚ) :
    Except String CarpetRender :=
  let notr := tr.isNone
  let trv : ℚ := match tr with | none => 1 | some x => x
  let dataM : NpMat := ⟨dataMatrix func seg, ntsteps⟩
  let detrended : NpMat := (cleanT dataM.T).T
  let ord := orderOf seg
  let long_cutoff : Option ℕ := if stat then none else some 800
  let disp : NpMat :=
    if stat then ⟨takeRows dataM.rows ord, dataM.ncols⟩
    else if 800 < detrended.ncols then
      ⟨(takeRows detrended.rows ord).map everySecond, (detrended.ncols + 1) / 2⟩
    else ⟨takeRows detrended.rows ord, detrended.ncols⟩
  let carpet_cmap := if stat then "Spectral_r" else "gray"
  let mr : ℚ × ℚ := match map_range with | none => (-2, 2) | some p => p
  let interval := max ((disp.ncols + 1) / 10) 1
  let xticks := (List.range disp.ncols).filter (fun c => c % interval = 0)
  if notr then
    Except.ok
      { nrows := disp.rows.length, ncols := disp.ncols, dispRows := disp.rows,
        cmap := carpet_cmap, vmin := mr.1, vmax := mr.2, xlabelTime := false,
        xticks := xticks, xticklabels := List.map (fun c : ℕ => (c : ℚ)) xticks }
  else
    match long_cutoff with
    | none => Except.error "NameError: long_cutoff is not defined"
    | some lc =>
      let labels := List.map (fun c : ℕ => trv * (c : ℚ)) xticks
      let labels := if lc < detrended.ncols then labels.map (fun x => x * 2)
                    else labels
      Except.ok
        { nrows := disp.rows.length, ncols := disp.ncols, dispRows := disp.rows,
          cmap := carpet_cmap, vmin := mr.1, vmax := mr.2, xlabelTime := true,
          xticks := xticks, xticklabels := labels }

/-! ### confoundplot: the cutoff list seen by the caller -/

/-- The time series as confoundplot uses it after the normalisation step
(lines 363-373): divided by the repetition time when normalize is set
(tr defaulting to 1 when absent). -/
def confoundSeries (tseries : List ℚ) (normalize : Bool) (tr : Option ℚ) :
    List ℚ :=
  let trv : ℚ := match tr with | none => 1 | some x => x
  if normalize then tseries.map (fun x => x / trv) else tseries

/-- Mean np.mean over the non-NaN entries (rational inputs have no NaN,
so the NaN mask is the identity here). -/
def seriesMean (l : List ℚ) : ℚ := l.sum / (l.length : ℚ)

/-- Content of the cutoff list owned by the caller after a confoundplot call in
which the caller supplied that list: line 439 executes
cutoff.insert(0, mean-of-normalised-series) on the list object owned by
the caller. -/
def callerCutoffAfter (tseries : List ℚ) (normalize : Bool) (tr : Option ℚ)
    (cutoff : List ℚ) : List ℚ :=
  seriesMean (confoundSeries tseries normalize tr) :: cutoff


/-- The detrended matrix clean(data.T, t_r=tr).T of the pipeline. -/
def carpetDetrended (cleanT : NpMat → NpMat) (ntsteps : ℕ)
    (func : List (List ℚ)) (seg : List ℤ) : NpMat :=
  (cleanT (NpMat.T ⟨dataMatrix func seg, ntsteps⟩)).T

/-- The displayed label sequence as a function of the flattened
positive-label list alone. -/
def dispOfPos (p : List ℤ) : List ℤ :=
  (orderOfPos p).map (fun i => p.getD i 0)

/-- Result t2 of an in-place routine is confined to positions
[lo, hi] of t1: same length, a permutation of it, and equal outside the
range. -/
structure Confined (t2 t1 : List ℕ) (lo hi : ℕ) : Prop where
  len : t2.length = t1.length
  perm : List.Perm t2 t1
  outside : ∀ k, k < lo ∨ hi < k → lget t2 k = lget t1 k

/-- The sub-list of positions lo..hi. -/
def seg (t : List ℕ) (lo hi : ℕ) : List ℕ := (t.drop lo).take (hi + 1 - lo)

/-- Keys are nondecreasing along positions lo..hi of the tosort array. -/
def SortedOn (v t : List ℕ) (lo hi : ℕ) : Prop :=
  ∀ i j, lo ≤ i → i ≤ j → j ≤ hi → keyAt v t i ≤ keyAt v t j

/-- Heap property of the 1-based cells [1, n] for every parent at or
below index l (towards the root being small indices): each node with
parent index at least l is at most its parent. -/
def HeapFrom (v t : List ℕ) (pl l n : ℕ) : Prop :=
  ∀ c, 2 ≤ c → c ≤ n → l ≤ c / 2 → hKey v t pl c ≤ hKey v t pl (c / 2)

/-- Heap property as HeapFrom, except that the children of the hole e
are unconstrained. -/
def HeapExceptAt (v t : List ℕ) (pl l n e : ℕ) : Prop :=
  ∀ c, 2 ≤ c → c ≤ n → l ≤ c / 2 → c / 2 ≠ e →
    hKey v t pl c ≤ hKey v t pl (c / 2)

/-! ### Basic facts about the band predicates -/

/-- C2 amended characterisation, band by band: under the strict masks of
the source, cortical GM is exactly 101..199, deep GM exactly 31..99,
cerebellum exactly 255, and WM/CSF exactly the labels below 10 (of which
only 1..9 can occur, the segmentation being masked to positive labels
before the bands are formed). -/
theorem bandNum_characterisation (l : ℤ) :
    (bandNum l = some 0 ↔ 101 ≤ l ∧ l ≤ 199) ∧
    (bandNum l = some 1 ↔ 31 ≤ l ∧ l ≤ 99) ∧
    (bandNum l = some 2 ↔ l = 255) ∧
    (bandNum l = some 3 ↔ l ≤ 9) := by
  simp only [bandNum, cortP, deepP, wmP, decide_eq_true_eq]
  by_cases h1 : 100 < l ∧ l < 200 <;> by_cases h2 : 30 < l ∧ l < 100 <;>
    by_cases h3 : l = 255 <;> by_cases h4 : l < 10 <;>
    simp [h1, h2, h3, h4] <;> omega


/-! ### Branch characterisations of fmricarpetplotM -/


/-- Under the clean contract, detrending preserves the number of time
points. -/
theorem carpetDetrended_ncols {cleanT : NpMat → NpMat}
    (hc : CleanContract cleanT) (ntsteps : ℕ) (func : List (List ℚ))
    (seg : List ℤ) :
    (carpetDetrended cleanT ntsteps func seg).ncols = ntsteps := by
  have hT1 : ∀ m : NpMat, (NpMat.T m).ncols = m.rows.length := fun _ => rfl
  have hT2 : ∀ m : NpMat, (NpMat.T m).rows.length = m.ncols := by
    simp [NpMat.T]
  rw [carpetDetrended, hT1, (hc _).2, hT2]

/-- Unfolding of the stat=False, tr supplied call of fmricarpetplot. -/
theorem carpet_false_some (cleanT : NpMat → NpMat) (ntsteps : ℕ)
    (func : List (List ℚ)) (seg : List ℤ) (mr : Option (ℚ × ℚ)) (τ : ℚ) :
    fmricarpetplotM cleanT ntsteps func seg false mr (some τ) =
      (fun (det : NpMat) =>
        (fun (disp : NpMat) (mrv : ℚ × ℚ) =>
          (fun (xticks : List ℕ) =>
            Except.ok
              { nrows := disp.rows.length, ncols := disp.ncols,
                dispRows := disp.rows, cmap := "gray", vmin := mrv.1,
                vmax := mrv.2, xlabelTime := true, xticks := xticks,
                xticklabels :=
                  if 800 < det.ncols then
                    (List.map (fun c : ℕ => τ * (c : ℚ)) xticks).map (fun x => x * 2)
                  else List.map (fun c : ℕ => τ * (c : ℚ)) xticks })
            ((List.range disp.ncols).filter
              (fun c => c % max ((disp.ncols + 1) / 10) 1 = 0)))
        (if 800 < det.ncols then
          ⟨(takeRows det.rows (orderOf seg)).map everySecond,
           (det.ncols + 1) / 2⟩
         else ⟨takeRows det.rows (orderOf seg), det.ncols⟩)
        (match mr with | none => (-2, 2) | some p => p))
      (carpetDetrended cleanT ntsteps func seg) := rfl

/-- Unfolding of the stat=False, tr=None call of fmricarpetplot. -/
theorem carpet_false_none (cleanT : NpMat → NpMat) (ntsteps : ℕ)
    (func : List (List ℚ)) (seg : List ℤ) (mr : Option (ℚ × ℚ)) :
    fmricarpetplotM cleanT ntsteps func seg false mr none =
      (fun (det : NpMat) =>
        (fun (disp : NpMat) (mrv : ℚ × ℚ) =>
          (fun (xticks : List ℕ) =>
            Except.ok
              { nrows := disp.rows.length, ncols := disp.ncols,
                dispRows := disp.rows, cmap := "gray", vmin := mrv.1,
                vmax := mrv.2, xlabelTime := false, xticks := xticks,
                xticklabels := List.map (fun c : ℕ => (c : ℚ)) xticks })
            ((List.range disp.ncols).filter
              (fun c => c % max ((disp.ncols + 1) / 10) 1 = 0)))
        (if 800 < det.ncols then
          ⟨(takeRows det.rows (orderOf seg)).map everySecond,
           (det.ncols + 1) / 2⟩
         else ⟨takeRows det.rows (orderOf seg), det.ncols⟩)
        (match mr with | none => (-2, 2) | some p => p))
      (carpetDetrended cleanT ntsteps func seg) := rfl

/-- Unfolding of the stat=True, tr=None call of fmricarpetplot: the raw
(undetrended) matrix is displayed without decimation. -/
theorem carpet_true_none (cleanT : NpMat → NpMat) (ntsteps : ℕ)
    (func : List (List ℚ)) (seg : List ℤ) (mr : Option (ℚ × ℚ)) :
    fmricarpetplotM cleanT ntsteps func seg true mr none =
      (fun (disp : NpMat) (mrv : ℚ × ℚ) =>
        (fun (xticks : List ℕ) =>
          Except.ok
            { nrows := disp.rows.length, ncols := disp.ncols,
              dispRows := disp.rows, cmap := "Spectral_r", vmin := mrv.1,
              vmax := mrv.2, xlabelTime := false, xticks := xticks,
              xticklabels := List.map (fun c : ℕ => (c : ℚ)) xticks })
          ((List.range disp.ncols).filter
            (fun c => c % max ((disp.ncols + 1) / 10) 1 = 0)))
      ⟨takeRows (dataMatrix func seg) (orderOf seg), ntsteps⟩
      (match mr with | none => (-2, 2) | some p => p) := rfl

/-- Unfolding of the stat=True, tr supplied call of fmricarpetplot: the
NameError on the unassigned local long_cutoff. -/
theorem carpet_true_some (cleanT : NpMat → NpMat) (ntsteps : ℕ)
    (func : List (List ℚ)) (seg : List ℤ) (mr : Option (ℚ × ℚ)) (τ : ℚ) :
    fmricarpetplotM cleanT ntsteps func seg true mr (some τ) =
      Except.error "NameError: long_cutoff is not defined" := rfl

/-! ## Claim theorems

One theorem per claim of the specification review, with counterexamples
and witnesses where applicable. -/

/-- C2, counterexample.  The claim states that label 100 belongs to the
cortical gray matter band (inclusive range 100-199) and that label 30
belongs to the deep gray matter band (inclusive range 30-99); the strict
masks seg_labels > 100 and seg_labels > 30 of the source exclude both,
so 100 and 30 belong to no band at all: for a segmentation carrying
exactly the labels 100 and 30, the concatenated band label list holds
only the constant cerebellum entry 255. -/
theorem c2_counterexample :
    bandNum 100 = none ∧ bandNum 30 = none ∧
    cortP 100 = false ∧ deepP 30 = false ∧
    labelsConcat (npUnique (posLabels [100, 30])) = [255] := by decide

/-- C2, amended.  The label-to-band partition of the carpet-row
reordering assigns every label 101..199 (inclusive) to cortical gray
matter, every label 31..99 (inclusive) to deep gray matter, exactly
label 255 to cerebellum, and every label strictly below 10 (the positive
ones being 1..9, since only positive labels survive the mask) to white
matter/CSF; labels 100 and 30 belong to no band. -/
theorem c2_amended_bands (l : ℤ) :
    (bandNum l = some 0 ↔ 101 ≤ l ∧ l ≤ 199) ∧
    (bandNum l = some 1 ↔ 31 ≤ l ∧ l ≤ 99) ∧
    (bandNum l = some 2 ↔ l = 255) ∧
    (bandNum l = some 3 ↔ l ≤ 9) ∧
    (bandNum 100 = none ∧ bandNum 30 = none) :=
  ⟨(bandNum_characterisation l).1, (bandNum_characterisation l).2.1,
   (bandNum_characterisation l).2.2.1, (bandNum_characterisation l).2.2.2,
   by decide, by decide⟩

/-- C9, code bug.  The specification says a figure-generation call
leaves caller-supplied argument structures unchanged, but confoundplot
executes cutoff.insert(0, mean) on the caller-supplied cutoff list
object: after a call with tseries [1, 2, 3] (mean 2) and cutoff [5],
the list owned by the caller holds [2, 5], not [5], so a repeated call with the
same descriptor no longer receives the same cutoff argument. -/
theorem c9_cutoff_mutation :
    callerCutoffAfter [1, 2, 3] false none [5] = [2, 5] ∧
    callerCutoffAfter [1, 2, 3] false none [5] ≠ [5] ∧
    callerCutoffAfter [1, 2, 3] false none
        (callerCutoffAfter [1, 2, 3] false none [5]) = [2, 2, 5] := by
  refine ⟨?_, by simp [callerCutoffAfter], ?_⟩ <;>
    norm_num [callerCutoffAfter, confoundSeries, seriesMean]

/-- C10, confirmed.  Whenever fmricarpetplot is called with stat true
and a repetition time supplied, the non-statistical branch that assigns
long_cutoff is skipped while the time-axis label branch still reads it,
so the call raises NameError - for every volume, segmentation, cleaning
function, map range and tr value. -/
theorem c10_nameerror (cleanT : NpMat → NpMat) (ntsteps : ℕ)
    (func : List (List ℚ)) (seg : List ℤ) (map_range : Option (ℚ × ℚ))
    (τ : ℚ) :
    fmricarpetplotM cleanT ntsteps func seg true map_range (some τ) =
      Except.error "NameError: long_cutoff is not defined" :=
  carpet_true_some cleanT ntsteps func seg map_range τ

/-- Arithmetic shape of the doubled tick labels: scaling the label
tr * c of display column c by 2 yields tr * (2c), the time of the
original (undecimated) frame 2c. -/
theorem map_cast_mul_two (τ : ℚ) (l : List ℕ) :
    List.map (fun x => x * 2) (List.map (fun c : ℕ => τ * (c : ℚ)) l) =
      List.map (fun c : ℕ => τ * ((2 * c : ℕ) : ℚ)) l := by
  induction l with
  | nil => rfl
  | cons a l ih =>
    simp only [List.map_cons, ih, List.cons.injEq, and_true]
    push_cast
    ring

/-- C5, counterexample.  The claim quantifies over every input with more
than 800 time points, but for statistical-map input no decimation
happens at all: with stat=True, tr=None and 801 time points the
rendered carpet keeps all 801 columns, not half of them (the claim
would allow at most (801+1)/2 + 1 = 402). -/
theorem c5_counterexample :
    (fmricarpetplotM (fun m => m) 801 [] [] true none none).map
        (fun r => r.ncols) = Except.ok 801 ∧
    ¬ (801 ≤ (801 + 1) / 2 + 1) := ⟨rfl, by decide⟩

/-- C5, amended.  For non-statistical input with a supplied sampling
interval and more than 800 time points, the rendered carpet has
(ntsteps+1)/2 columns (every second column kept) and each tick label
equals tr times twice the displayed column index, i.e. the original
time value of the frame shown there. -/
theorem c5_decimation (cleanT : NpMat → NpMat) (hc : CleanContract cleanT)
    (ntsteps : ℕ) (func : List (List ℚ)) (seg : List ℤ)
    (mr : Option (ℚ × ℚ)) (τ : ℚ) (h : 800 < ntsteps) :
    ∃ r, fmricarpetplotM cleanT ntsteps func seg false mr (some τ) =
        Except.ok r ∧ r.ncols = (ntsteps + 1) / 2 ∧
      r.xticklabels = List.map (fun c : ℕ => τ * ((2 * c : ℕ) : ℚ)) r.xticks := by
  have hd := carpetDetrended_ncols hc ntsteps func seg
  rw [carpet_false_some]
  simp only [hd, if_pos h]
  refine ⟨_, rfl, rfl, map_cast_mul_two τ _⟩

/-- C5, witness: the amended statement at a concrete 1-voxel volume with
801 time points, tr = 2 and the identity cleaning function. -/
theorem c5_decimation_witness :
    ∃ r, fmricarpetplotM (fun m => m) 801 [List.replicate 801 0] [5]
        false none (some 2) = Except.ok r ∧
      r.ncols = (801 + 1) / 2 ∧
      r.xticklabels = List.map (fun c : ℕ => 2 * ((2 * c : ℕ) : ℚ)) r.xticks :=
  c5_decimation (fun m => m) (fun _ => ⟨rfl, rfl⟩) 801 _ _ none 2
    (by norm_num)

/-- C6, counterexample.  The claim quantifies over every input with at
most 800 samples, but a statistical-map call with a supplied sampling
interval never renders tick labels at all: it raises NameError, so the
promised tick values do not exist for that input. -/
theorem c6_counterexample :
    fmricarpetplotM (fun m => m) 10 [[1, 2, 3, 4, 5, 6, 7, 8, 9, 10]] [5]
        true none (some 2) =
      Except.error "NameError: long_cutoff is not defined" ∧
    (10 : ℕ) ≤ 800 := ⟨rfl, by decide⟩

/-- C6, amended.  For every input with at most 800 time points, except
the statistical-map-with-sampling-interval combination (which raises
NameError, claim C10), the rendered column count equals the input time
point count, and when a sampling interval is supplied each tick label
equals the sampling interval times the frame index of the tick. -/
theorem c6_no_decimation (cleanT : NpMat → NpMat) (hc : CleanContract cleanT)
    (ntsteps : ℕ) (func : List (List ℚ)) (seg : List ℤ) (stat : Bool)
    (mr : Option (ℚ × ℚ)) (tr : Option ℚ) (h : ntsteps ≤ 800)
    (hex : stat = true → tr = none) :
    ∃ r, fmricarpetplotM cleanT ntsteps func seg stat mr tr =
        Except.ok r ∧ r.ncols = ntsteps ∧
      ∀ τ, tr = some τ →
        r.xticklabels = List.map (fun c : ℕ => τ * (c : ℚ)) r.xticks := by
  have hd := carpetDetrended_ncols hc ntsteps func seg
  have h8 : ¬ 800 < ntsteps := by omega
  cases stat with
  | false =>
    cases tr with
    | none =>
      rw [carpet_false_none]
      simp only [hd, if_neg h8]
      exact ⟨_, rfl, rfl, fun τ ht => nomatch ht⟩
    | some τ0 =>
      rw [carpet_false_some]
      simp only [hd, if_neg h8]
      refine ⟨_, rfl, rfl, ?_⟩
      intro τ ht
      cases ht
      rfl
  | true =>
    rw [hex rfl, carpet_true_none]
    exact ⟨_, rfl, rfl, fun τ ht => nomatch ht⟩

/-- C6, witness: the amended statement at a concrete 1-voxel, 4-frame
non-statistical input with tr = 2. -/
theorem c6_no_decimation_witness :
    ∃ r, fmricarpetplotM (fun m => m) 4 [[1, 2, 3, 4]] [5] false none
        (some 2) = Except.ok r ∧ r.ncols = 4 ∧
      ∀ τ, (some (2 : ℚ)) = some τ →
        r.xticklabels = List.map (fun c : ℕ => τ * (c : ℚ)) r.xticks :=
  c6_no_decimation (fun m => m) (fun _ => ⟨rfl, rfl⟩) 4 _ _ false none
    (some 2) (by norm_num) (fun hx => nomatch hx)

/-- C7, counterexample.  The claim says no clipping range is enforced by
default for statistical-map input, but with map_range unspecified the
source substitutes the same default (-2, 2) before imshow regardless of
stat: a stat=True call passes vmin = -2 and vmax = 2. -/
theorem c7_counterexample :
    (fmricarpetplotM (fun m => m) 5 [[1, 2, 3, 4, 5]] [20] true none
        none).map (fun r => (r.vmin, r.vmax, r.cmap)) =
      Except.ok (-2, 2, "Spectral_r") := rfl

/-- C7, amended.  When map_range is unspecified, every completing call
clips the display to (-2, 2) - non-statistical and statistical alike -
and the colormap is the diverging Spectral_r for statistical input and
gray otherwise. -/
theorem c7_default_range (cleanT : NpMat → NpMat) (ntsteps : ℕ)
    (func : List (List ℚ)) (seg : List ℤ) (stat : Bool) (tr : Option ℚ)
    (r : CarpetRender)
    (hok : fmricarpetplotM cleanT ntsteps func seg stat none tr =
      Except.ok r) :
    r.vmin = -2 ∧ r.vmax = 2 ∧
    r.cmap = (if stat then "Spectral_r" else "gray") := by
  cases stat with
  | false =>
    cases tr with
    | none =>
      rw [carpet_false_none] at hok
      cases hok
      exact ⟨rfl, rfl, rfl⟩
    | some τ =>
      rw [carpet_false_some] at hok
      cases hok
      exact ⟨rfl, rfl, rfl⟩
  | true =>
    cases tr with
    | none =>
      rw [carpet_true_none] at hok
      cases hok
      exact ⟨rfl, rfl, rfl⟩
    | some τ =>
      rw [carpet_true_some] at hok
      cases hok

/-- C7, witness: the amended statement at a concrete statistical-map
call (which shows the colormap is diverging and the default clip range
is applied). -/
theorem c7_default_range_witness :
    ∃ r, fmricarpetplotM (fun m => m) 5 [[1, 2, 3, 4, 5]] [20] true none
        none = Except.ok r ∧
      r.vmin = -2 ∧ r.vmax = 2 ∧ r.cmap = "Spectral_r" := by
  refine ⟨_, rfl, ?_⟩
  have h := c7_default_range (fun m => m) 5 [[1, 2, 3, 4, 5]] [20] true
    none _ rfl
  exact ⟨h.1, h.2.1, h.2.2⟩

/-! ### Row-count and concrete-ordering helpers -/


/-- displayedLabels factors through the positive-label list. -/
theorem dispOfPos_eq (seg : List ℤ) :
    displayedLabels seg = dispOfPos (posLabels seg) := rfl

/-- For each of the 24 arrival orders of one voxel per band with labels
150, 50, 255, 5, the produced permutation displays the rows in band
order 150, 50, 255, 5. -/
theorem dispOfPos_perms :
    ∀ p ∈ ([150, 50, 255, 5] : List ℤ).permutations',
      dispOfPos p = [150, 50, 255, 5] := by decide

/-- The voxel-time matrix has one row per positive-label voxel (the mask
never drops labelled voxels, whatever their label). -/
theorem dataMatrix_length (func : List (List ℚ)) (seg : List ℤ)
    (h : seg.length ≤ func.length) :
    (dataMatrix func seg).length = (posLabels seg).length := by
  induction seg generalizing func with
  | nil => rfl
  | cons a s ih =>
    cases func with
    | nil => simp at h
    | cons b f =>
      simp only [List.length_cons, Nat.add_le_add_iff_right] at h
      simp only [dataMatrix, posLabels, List.zip_cons_cons, List.filter_cons]
      by_cases ha : (0 : ℤ) < a
      · simpa [ha, dataMatrix, posLabels] using ih f h
      · simpa [ha, dataMatrix, posLabels] using ih f h

/-- C1, counterexample.  The claim says voxels with a positive label
outside the four bands are excluded from the matrix and the permutation.
With segmentation [20, 5] the label 20 is in no band (10..30 matches no
mask), yet the matrix keeps 2 rows, the permutation has 2 entries, and
only 1 of the 2 labelled voxels is in a band. -/
theorem c1_counterexample :
    (dataMatrix [[0], [0]] [20, 5]).length = 2 ∧
    (posLabels [20, 5]).countP inBand = 1 ∧
    (orderOf [20, 5]).length = 2 ∧ inBand 20 = false := by decide

/-- C4, counterexample.  The claim says the reordering is a stable sort:
voxels with equal rank keep their original relative order.  With 17
voxels all of label 5 (hence all of equal rank), np.argsort quicksort
path scrambles the indices - the produced order is
[0, 14, 13, 12, 11, 10, 9, 15, 8, 6, 5, 4, 3, 2, 1, 7, 16], where voxel
14 is displayed before voxel 13 although 13 precedes 14 originally. -/
theorem c4_counterexample :
    orderOf (List.replicate 17 (5 : ℤ)) =
      [0, 14, 13, 12, 11, 10, 9, 15, 8, 6, 5, 4, 3, 2, 1, 7, 16] ∧
    (newsegm (List.replicate 17 (5 : ℤ))).getD 13 0 =
      (newsegm (List.replicate 17 (5 : ℤ))).getD 14 0 ∧
    (orderOf (List.replicate 17 (5 : ℤ))).indexOf 14 <
      (orderOf (List.replicate 17 (5 : ℤ))).indexOf 13 := by decide

/-- C8, confirmed.  For a 4x4x4x50 volume (64 voxels flattened, 50 time
points) whose segmentation holds exactly one voxel of each of the
labels 150, 50, 255 and 5 and zeros elsewhere - in any spatial
arrangement - the derived voxel-time matrix has exactly 4 rows, and the
produced permutation displays them in the order of the labels
150, 50, 255, 5. -/
theorem c8_one_voxel_per_band (func : List (List ℚ)) (seg : List ℤ)
    (hlen : seg.length = 64) (hfunc : func.length = 64)
    (_hrows : ∀ r ∈ func, r.length = 50)
    (hperm : (posLabels seg).Perm [150, 50, 255, 5]) :
    (dataMatrix func seg).length = 4 ∧
    displayedLabels seg = [150, 50, 255, 5] := by
  constructor
  · rw [dataMatrix_length func seg (by omega), hperm.length_eq]
    rfl
  · rw [dispOfPos_eq]
    exact dispOfPos_perms _ (List.mem_permutations'.mpr hperm)

/-- C8, witness: a concrete 64-voxel segmentation carrying the four
labels at the last four flattened positions in the scrambled arrival
order 50, 150, 5, 255. -/
theorem c8_one_voxel_per_band_witness :
    (dataMatrix (List.replicate 64 (List.replicate 50 (0 : ℚ)))
        (List.replicate 60 0 ++ [50, 150, 5, 255])).length = 4 ∧
    displayedLabels (List.replicate 60 0 ++ [50, 150, 5, 255]) =
      [150, 50, 255, 5] :=
  c8_one_voxel_per_band _ _ (by decide) (by simp)
    (fun r hr => by rw [List.eq_of_mem_replicate hr]; simp)
    (by decide)


theorem lget_set_self {t : List ℕ} {i : ℕ} (h : i < t.length) (x : ℕ) :
    lget (t.set i x) i = x := by
  simp [lget, List.getD_eq_getElem?_getD, List.getElem?_set, h]

theorem lget_set_ne {t : List ℕ} {i j : ℕ} (h : i ≠ j) (x : ℕ) :
    lget (t.set i x) j = lget t j := by
  simp [lget, List.getD_eq_getElem?_getD, List.getElem?_set, h]

theorem set_lget_self (t : List ℕ) (i : ℕ) : t.set i (lget t i) = t := by
  by_cases h : i < t.length
  · apply List.ext_getElem?
    intro j
    rw [List.getElem?_set]
    by_cases hij : i = j
    · subst hij
      simp [h, lget, List.getD_eq_getElem?_getD, List.getElem?_eq_getElem h]
    · simp [hij]
  · rw [List.set_eq_of_length_le (by omega)]

theorem length_lswap (t : List ℕ) (i j : ℕ) :
    (lswap t i j).length = t.length := by
  simp [lswap]

theorem lget_lswap_left {t : List ℕ} {i j : ℕ} (hi : i < t.length)
    (hij : i ≠ j) : lget (lswap t i j) i = lget t j := by
  rw [lswap, lget_set_ne (Ne.symm hij), lget_set_self hi]

theorem lget_lswap_right {t : List ℕ} {i j : ℕ} (hj : j < t.length) :
    lget (lswap t i j) j = lget t i := by
  rw [lswap, lget_set_self (by simpa using hj)]

theorem lget_lswap_other {t : List ℕ} {i j k : ℕ} (h1 : k ≠ i)
    (h2 : k ≠ j) : lget (lswap t i j) k = lget t k := by
  rw [lswap, lget_set_ne (Ne.symm h2), lget_set_ne (Ne.symm h1)]

theorem cons_set_perm : ∀ (l : List ℕ) (m : ℕ) (a : ℕ), m < l.length →
    List.Perm (lget l m :: l.set m a) (a :: l)
  | [], m, a, h => absurd h (by simp)
  | b :: l, 0, a, _ => by
    simpa [lget] using List.Perm.swap a b l
  | b :: l, m + 1, a, h => by
    have hm : m < l.length := by simpa using h
    have h1 : lget (b :: l) (m + 1) = lget l m := rfl
    have h2 : (b :: l).set (m + 1) a = b :: l.set m a := rfl
    rw [h1, h2]
    refine (List.Perm.swap b (lget l m) (l.set m a)).trans ?_
    exact ((cons_set_perm l m a hm).cons b).trans (List.Perm.swap a b l)

theorem lswap_perm (t : List ℕ) (i j : ℕ) (hi : i < t.length)
    (hj : j < t.length) : List.Perm (lswap t i j) t := by
  by_cases hij : i = j
  · subst hij
    rw [lswap, List.set_set, set_lget_self]
  · have h1 : List.Perm (lget t j :: t.set j (lget t i))
        (lget t i :: t) := cons_set_perm t j (lget t i) hj
    have h2 : List.Perm (lget t i :: lswap t i j)
        (lget t i :: t) := by
      have h3 : lget (t.set j (lget t i)) i = lget t i :=
        lget_set_ne (fun hh => hij hh.symm) _
      have h4 : i < (t.set j (lget t i)).length := by simpa using hi
      have h5 : lget t i :: lswap t i j =
          lget (t.set j (lget t i)) i ::
            (t.set j (lget t i)).set i (lget t j) := by
        rw [h3]
        congr 1
        rw [lswap, List.set_comm _ _ _ hij]
      rw [h5]
      exact (cons_set_perm (t.set j (lget t i)) i (lget t j) h4).trans h1
    exact (List.Perm.cons_inv h2)



theorem Confined.refl (t : List ℕ) (lo hi : ℕ) : Confined t t lo hi :=
  ⟨Eq.refl _, List.Perm.refl t, fun _ _ => Eq.refl _⟩

theorem Confined.trans {t3 t2 t1 : List ℕ} {lo hi : ℕ}
    (h32 : Confined t3 t2 lo hi) (h21 : Confined t2 t1 lo hi) :
    Confined t3 t1 lo hi :=
  ⟨h32.len.trans h21.len, h32.perm.trans h21.perm,
   fun k hk => (h32.outside k hk).trans (h21.outside k hk)⟩

theorem Confined.mono {t2 t1 : List ℕ} {lo hi lo2 hi2 : ℕ}
    (h : Confined t2 t1 lo hi) (hlo : lo2 ≤ lo) (hhi : hi ≤ hi2) :
    Confined t2 t1 lo2 hi2 :=
  ⟨h.len, h.perm, fun k hk => h.outside k (by omega)⟩

theorem lswap_confined {t : List ℕ} {i j lo hi : ℕ} (h1 : lo ≤ i)
    (h2 : i ≤ hi) (h3 : lo ≤ j) (h4 : j ≤ hi) (hi' : i < t.length)
    (hj' : j < t.length) : Confined (lswap t i j) t lo hi :=
  ⟨length_lswap t i j, lswap_perm t i j hi' hj',
   fun k hk => lget_lswap_other (by omega) (by omega)⟩


theorem seg_length {t : List ℕ} {lo hi : ℕ} (h : hi < t.length)
    (h2 : lo ≤ hi) : (seg t lo hi).length = hi + 1 - lo := by
  simp [seg]
  omega

theorem seg_getElem {t : List ℕ} {lo hi k : ℕ} (hk : k < (seg t lo hi).length) :
    (seg t lo hi)[k] = lget t (lo + k) := by
  have h1 : k < t.length - lo := by
    have := hk
    simp [seg] at this
    omega
  have h2 : lo + k < t.length := by omega
  simp only [seg]
  rw [List.getElem_take, List.getElem_drop]
  simp [lget, List.getD_eq_getElem?_getD, List.getElem?_eq_getElem h2]

theorem mem_seg {t : List ℕ} {lo hi : ℕ} (hhi : hi < t.length) {a : ℕ} :
    a ∈ seg t lo hi ↔ ∃ x, lo ≤ x ∧ x ≤ hi ∧ lget t x = a := by
  constructor
  · intro ha
    obtain ⟨k, hk, he⟩ := List.mem_iff_getElem.mp ha
    refine ⟨lo + k, by omega, ?_, by rw [seg_getElem hk] at he; exact he⟩
    have := hk
    simp [seg] at this
    omega
  · rintro ⟨x, hx1, hx2, hx3⟩
    rw [List.mem_iff_getElem]
    have hl : (seg t lo hi).length = hi + 1 - lo := seg_length hhi (by omega)
    refine ⟨x - lo, by omega, ?_⟩
    rw [seg_getElem]
    rw [Nat.add_sub_cancel' hx1]
    exact hx3


theorem getElem?_eq_of_lget_eq {t2 t1 : List ℕ} {k : ℕ}
    (hlen : t2.length = t1.length) (h : lget t2 k = lget t1 k) :
    t2[k]? = t1[k]? := by
  by_cases hk : k < t2.length
  · rw [List.getElem?_eq_getElem hk, List.getElem?_eq_getElem (hlen ▸ hk)]
    have e2 : lget t2 k = t2[k] := List.getD_eq_getElem t2 0 hk
    have e1 : lget t1 k = t1[k] := List.getD_eq_getElem t1 0 (hlen ▸ hk)
    rw [e2, e1] at h
    exact congrArg some h
  · rw [List.getElem?_eq_none (by omega), List.getElem?_eq_none (by omega)]

theorem seg_decomp (t : List ℕ) (lo hi : ℕ) (h : lo ≤ hi + 1) :
    t = t.take lo ++ seg t lo hi ++ t.drop (hi + 1) := by
  rw [List.append_assoc, seg]
  have h2 : (t.drop lo).drop (hi + 1 - lo) = t.drop (hi + 1) := by
    rw [List.drop_drop]
    congr 1
    omega
  rw [← h2, List.take_append_drop, List.take_append_drop]

theorem Confined.seg_perm {t2 t1 : List ℕ} {lo hi : ℕ}
    (h : Confined t2 t1 lo hi) (hle : lo ≤ hi + 1) :
    List.Perm (seg t2 lo hi) (seg t1 lo hi) := by
  have htake : t2.take lo = t1.take lo := by
    apply List.ext_getElem?
    intro k
    simp only [List.getElem?_take]
    by_cases hk : k < lo
    · simp only [hk, if_pos]
      exact getElem?_eq_of_lget_eq h.len (h.outside k (Or.inl hk))
    · simp [hk]
  have hdrop : t2.drop (hi + 1) = t1.drop (hi + 1) := by
    apply List.ext_getElem?
    intro k
    rw [List.getElem?_drop, List.getElem?_drop]
    exact getElem?_eq_of_lget_eq h.len (h.outside _ (Or.inr (by omega)))
  have hp := h.perm
  rw [seg_decomp t2 lo hi hle, seg_decomp t1 lo hi hle, htake, hdrop] at hp
  rw [List.append_assoc, List.append_assoc] at hp
  have hp2 := (List.perm_append_left_iff _).mp hp
  exact (List.perm_append_right_iff _).mp hp2

/-- Transfer of a pointwise property of the keys on a segment across a
Confined step: the segment is permuted, so a property of all its
entries is kept. -/
theorem Confined.forall_seg {t2 t1 : List ℕ} {lo hi : ℕ}
    (h : Confined t2 t1 lo hi) (hhi : hi < t1.length) {P : ℕ → Prop}
    (hp : ∀ x, lo ≤ x → x ≤ hi → P (lget t1 x)) :
    ∀ x, lo ≤ x → x ≤ hi → P (lget t2 x) := by
  intro x hx1 hx2
  have hhi2 : hi < t2.length := by rw [h.len]; exact hhi
  have hm : lget t2 x ∈ seg t2 lo hi :=
    (mem_seg hhi2).mpr ⟨x, hx1, hx2, rfl⟩
  have hm2 : lget t2 x ∈ seg t1 lo hi :=
    (h.seg_perm (by omega)).subset hm
  obtain ⟨y, hy1, hy2, hy3⟩ := (mem_seg hhi).mp hm2
  rw [← hy3]
  exact hp y hy1 hy2



theorem keyAt_set_self {v t : List ℕ} {i : ℕ} (h : i < t.length) (x : ℕ) :
    keyAt v (t.set i x) i = v.getD x 0 := by
  rw [keyAt, lget_set_self h]

theorem keyAt_set_ne {v t : List ℕ} {i j : ℕ} (h : i ≠ j) (x : ℕ) :
    keyAt v (t.set i x) j = keyAt v t j := by
  rw [keyAt, lget_set_ne h]
  rfl

theorem insInner_confined {v : List ℕ} {vp vi pl : ℕ} :
    ∀ (d : ℕ) (t : List ℕ), pl + d < t.length →
    Confined (insInner v vp vi pl t d) (t.set (pl + d) vi) pl (pl + d)
  | 0, t, _ => by
    simp only [insInner, Nat.add_zero]
    exact Confined.refl _ _ _
  | d + 1, t, hlen => by
    rw [insInner]
    by_cases hc : vp < keyAt v t (pl + d)
    · rw [if_pos hc]
      have hlen2 : pl + d < (t.set (pl + d + 1) (lget t (pl + d))).length := by
        simp only [List.length_set]
        omega
      have ih := @insInner_confined v vp vi pl d (t.set (pl + d + 1) (lget t (pl + d))) hlen2
      have hne : pl + d ≠ pl + d + 1 := by omega
      have heq : (t.set (pl + d + 1) (lget t (pl + d))).set (pl + d) vi =
          lswap (t.set (pl + d + 1) vi) (pl + d) (pl + d + 1) := by
        rw [lswap]
        have e1 : lget (t.set (pl + d + 1) vi) (pl + d + 1) = vi :=
          lget_set_self (by omega) vi
        have e2 : lget (t.set (pl + d + 1) vi) (pl + d) = lget t (pl + d) :=
          lget_set_ne (by omega) vi
        rw [e1, e2]
        rw [List.set_comm _ _ _ hne, List.set_set]
      rw [heq] at ih
      have hsw : Confined (lswap (t.set (pl + d + 1) vi) (pl + d) (pl + d + 1))
          (t.set (pl + d + 1) vi) pl (pl + d + 1) :=
        lswap_confined (by omega) (by omega) (by omega) (by omega)
          (by simp only [List.length_set]; omega)
          (by simp only [List.length_set]; omega)
      exact (ih.mono (le_refl pl) (by omega)).trans hsw
    · rw [if_neg hc]
      exact Confined.refl _ _ _

theorem insInner_sorted {v : List ℕ} {vp vi pl : ℕ} :
    ∀ (d : ℕ) (t : List ℕ) (hi : ℕ),
    v.getD vi 0 = vp →
    pl + d ≤ hi → hi < t.length →
    (∀ i j, pl ≤ i → i ≤ j → j < pl + d → keyAt v t i ≤ keyAt v t j) →
    (∀ x, pl + d < x → x ≤ hi → vp < keyAt v t x) →
    (∀ i x, pl ≤ i → i < pl + d → pl + d < x → x ≤ hi →
      keyAt v t i ≤ keyAt v t x) →
    (∀ x y, pl + d < x → x ≤ y → y ≤ hi → keyAt v t x ≤ keyAt v t y) →
    SortedOn v (insInner v vp vi pl t d) pl hi
  | 0, t, hi, hvp, hdhi, hhi, _, htail, _, htsort => by
    simp only [insInner, Nat.add_zero] at *
    intro i j h1 h2 h3
    have hpl : pl < t.length := by omega
    by_cases hip : i = pl
    · subst hip
      by_cases hjp : j = i
      · subst hjp; exact le_refl _
      · rw [keyAt_set_self hpl, hvp, keyAt_set_ne (by omega)]
        exact le_of_lt (htail j (by omega) h3)
    · have hi2 : pl < i := by omega
      rw [keyAt_set_ne (by omega), keyAt_set_ne (by omega)]
      exact htsort i j hi2 h2 h3
  | d + 1, t, hi, hvp, hdhi, hhi, hpre, htail, hcross, htsort => by
    rw [insInner]
    by_cases hc : vp < keyAt v t (pl + d)
    · rw [if_pos hc]
      set t1 := t.set (pl + d + 1) (lget t (pl + d)) with ht1
      have hk1 : keyAt v t1 (pl + d + 1) = keyAt v t (pl + d) := by
        rw [ht1, keyAt_set_self (by omega), keyAt]
      have hko : ∀ x, x ≠ pl + d + 1 → keyAt v t1 x = keyAt v t x :=
        fun x hx => keyAt_set_ne (fun hh => hx hh.symm) _
      refine insInner_sorted d t1 hi hvp (by omega)
        (by simp only [ht1, List.length_set]; omega) ?_ ?_ ?_ ?_
      · intro i j h1 h2 h3
        rw [hko i (by omega), hko j (by omega)]
        exact hpre i j h1 h2 (by omega)
      · intro x hx1 hx2
        by_cases hx : x = pl + d + 1
        · subst hx; rw [hk1]; exact hc
        · rw [hko x hx]; exact htail x (by omega) hx2
      · intro i x h1 h2 h3 h4
        rw [hko i (by omega)]
        by_cases hx : x = pl + d + 1
        · subst hx
          rw [hk1]
          exact hpre i (pl + d) h1 (by omega) (by omega)
        · rw [hko x hx]
          exact hcross i x h1 (by omega) (by omega) h4
      · intro x y h1 h2 h3
        by_cases hx : x = pl + d + 1
        · subst hx
          by_cases hy : y = pl + d + 1
          · subst hy; exact le_refl _
          · rw [hk1, hko y (by omega)]
            exact hcross (pl + d) y (by omega) (by omega) (by omega) h3
        · rw [hko x hx, hko y (by omega)]
          exact htsort x y (by omega) h2 h3
    · rw [if_neg hc]
      push_neg at hc
      intro i j h1 h2 h3
      have hlen1 : pl + d + 1 < t.length := by omega
      have hks : keyAt v (t.set (pl + d + 1) vi) (pl + d + 1) = vp := by
        rw [keyAt_set_self hlen1, hvp]
      have hko : ∀ x, x ≠ pl + d + 1 →
          keyAt v (t.set (pl + d + 1) vi) x = keyAt v t x :=
        fun x hx => keyAt_set_ne (fun hh => hx hh.symm) _
      by_cases hif : i = pl + d + 1
      · subst hif
        by_cases hjf : j = pl + d + 1
        · subst hjf; exact le_refl _
        · rw [hks, hko j (by omega)]
          exact le_of_lt (htail j (by omega) h3)
      · by_cases hjf : j = pl + d + 1
        · subst hjf
          rw [hks, hko i hif]
          have hi3 : i ≤ pl + d := by omega
          exact le_trans (hpre i (pl + d) h1 hi3 (by omega)) hc
        · rw [hko i hif, hko j hjf]
          by_cases hi3 : i < pl + d + 1
          · by_cases hj3 : j < pl + d + 1
            · exact hpre i j h1 h2 hj3
            · exact hcross i j h1 (by omega) (by omega) h3
          · exact htsort i j (by omega) h2 h3


theorem insSteps_spec {v : List ℕ} {pl : ℕ} :
    ∀ (k : ℕ) (t : List ℕ), pl + k < t.length →
    Confined (insSteps v pl t k) t pl (pl + k) ∧
    SortedOn v (insSteps v pl t k) pl (pl + k)
  | 0, t, _ => by
    refine ⟨Confined.refl _ _ _, ?_⟩
    intro i j h1 h2 h3
    have hij : i = j := by omega
    rw [hij]
  | k + 1, t, h => by
    obtain ⟨ihc, ihs⟩ := @insSteps_spec v pl k t (by omega)
    rw [insSteps]
    have harg : pl + k + 1 - pl = k + 1 := by omega
    rw [harg]
    set t1 := insSteps v pl t k with ht1
    set vi := lget t1 (pl + k + 1) with hvi
    have hlent1 : t1.length = t.length := ihc.len
    have hlen1 : pl + (k + 1) < t1.length := by omega
    constructor
    · have hc := @insInner_confined v (v.getD vi 0) vi pl (k + 1) t1 hlen1
      have hset : t1.set (pl + (k + 1)) vi = t1 := by
        rw [hvi]
        have : pl + (k + 1) = pl + k + 1 := by omega
        rw [this, set_lget_self]
      rw [hset] at hc
      exact ((hc.mono (le_refl pl) (by omega)).trans
        (ihc.mono (le_refl pl) (by omega)))
    · refine insInner_sorted (k + 1) t1 (pl + (k + 1)) rfl (le_refl _)
        hlen1 ?_ ?_ ?_ ?_
      · intro i j h1 h2 h3
        exact ihs i j h1 h2 (by omega)
      · intro x hx1 hx2
        omega
      · intro i x h1 h2 h3 h4
        omega
      · intro x y h1 h2 h3
        omega

theorem insertionSortRange_spec (v t : List ℕ) (pl pr : ℕ)
    (h : pr < t.length) :
    Confined (insertionSortRange v t pl pr) t pl pr ∧
    SortedOn v (insertionSortRange v t pl pr) pl pr := by
  by_cases hple : pl ≤ pr
  · have hs := @insSteps_spec v pl (pr - pl) t (by omega)
    have harg : pl + (pr - pl) = pr := by omega
    rw [harg] at hs
    exact hs
  · rw [insertionSortRange, show pr - pl = 0 from by omega, insSteps]
    refine ⟨Confined.refl _ _ _, ?_⟩
    intro i j h1 h2 h3
    exact absurd (le_trans h1 (le_trans h2 h3)) hple


theorem scanUp_post {v : List ℕ} {vp : ℕ} {t : List ℕ} :
    ∀ (fuel pi b : ℕ), pi < b → b ≤ pi + fuel →
    ¬ (keyAt v t b < vp) →
    (pi < scanUp v vp t pi fuel ∧ scanUp v vp t pi fuel ≤ b) ∧
    ¬ (keyAt v t (scanUp v vp t pi fuel) < vp) ∧
    (∀ x, pi < x → x < scanUp v vp t pi fuel → keyAt v t x < vp)
  | 0, pi, b, hb, hfuel, _ => absurd hfuel (by omega)
  | fuel + 1, pi, b, hb, hfuel, hstop => by
    rw [scanUp]
    by_cases hc : keyAt v t (pi + 1) < vp
    · rw [if_pos hc]
      have hne : pi + 1 ≠ b := fun he => hstop (he ▸ hc)
      have ih := @scanUp_post v vp t fuel (pi + 1) b (by omega) (by omega)
        hstop
      refine ⟨⟨by omega, ih.1.2⟩, ih.2.1, ?_⟩
      intro x hx1 hx2
      by_cases hx : x = pi + 1
      · subst hx; exact hc
      · exact ih.2.2 x (by omega) hx2
    · rw [if_neg hc]
      exact ⟨⟨by omega, by omega⟩, hc, fun x hx1 hx2 => absurd hx2
        (by omega)⟩

theorem scanDown_post {v : List ℕ} {vp : ℕ} {t : List ℕ} :
    ∀ (fuel pj b : ℕ), b < pj → pj ≤ b + fuel →
    ¬ (vp < keyAt v t b) →
    (b ≤ scanDown v vp t pj fuel ∧ scanDown v vp t pj fuel < pj) ∧
    ¬ (vp < keyAt v t (scanDown v vp t pj fuel)) ∧
    (∀ x, scanDown v vp t pj fuel < x → x < pj → vp < keyAt v t x)
  | 0, pj, b, hb, hfuel, _ => absurd hfuel (by omega)
  | fuel + 1, pj, b, hb, hfuel, hstop => by
    rw [scanDown]
    by_cases hc : vp < keyAt v t (pj - 1)
    · rw [if_pos hc]
      have hne : pj - 1 ≠ b := fun he => hstop (he ▸ hc)
      have ih := @scanDown_post v vp t fuel (pj - 1) b (by omega) (by omega)
        hstop
      refine ⟨⟨ih.1.1, by omega⟩, ih.2.1, ?_⟩
      intro x hx1 hx2
      by_cases hx : x = pj - 1
      · subst hx; exact hc
      · exact ih.2.2 x hx1 (by omega)
    · rw [if_neg hc]
      exact ⟨⟨by omega, by omega⟩, hc, fun x hx1 hx2 => absurd hx1
        (by omega)⟩

theorem keyAt_lswap_left {v t : List ℕ} {i j : ℕ} (hi : i < t.length)
    (hij : i ≠ j) : keyAt v (lswap t i j) i = keyAt v t j := by
  rw [keyAt, lget_lswap_left hi hij]
  rfl

theorem keyAt_lswap_right {v t : List ℕ} {i j : ℕ} (hj : j < t.length) :
    keyAt v (lswap t i j) j = keyAt v t i := by
  rw [keyAt, lget_lswap_right hj]
  rfl

theorem keyAt_lswap_other {v t : List ℕ} {i j k : ℕ} (h1 : k ≠ i)
    (h2 : k ≠ j) : keyAt v (lswap t i j) k = keyAt v t k := by
  rw [keyAt, lget_lswap_other h1 h2]
  rfl

theorem hoareLoop_post {v : List ℕ} {vp pl pr : ℕ} :
    ∀ (fuel : ℕ) (t : List ℕ) (pi pj : ℕ),
    pr < t.length → pl ≤ pi → pi < pj → pj ≤ pr - 1 → pl + 2 ≤ pr →
    pj - pi ≤ fuel →
    keyAt v t pl ≤ vp →
    keyAt v t (pr - 1) = vp →
    (∀ x, pl ≤ x → x ≤ pi → keyAt v t x ≤ vp) →
    (∀ x, pj ≤ x → x ≤ pr → vp ≤ keyAt v t x) →
    Confined (hoareLoop v vp t pi pj fuel).1 t (pl + 1) (pr - 2) ∧
    (pl + 1 ≤ (hoareLoop v vp t pi pj fuel).2 ∧
      (hoareLoop v vp t pi pj fuel).2 ≤ pr - 1) ∧
    keyAt v (hoareLoop v vp t pi pj fuel).1 (pr - 1) = vp ∧
    vp ≤ keyAt v (hoareLoop v vp t pi pj fuel).1
      (hoareLoop v vp t pi pj fuel).2 ∧
    (∀ x, pl ≤ x → x < (hoareLoop v vp t pi pj fuel).2 →
      keyAt v (hoareLoop v vp t pi pj fuel).1 x ≤ vp) ∧
    (∀ x, (hoareLoop v vp t pi pj fuel).2 < x → x ≤ pr →
      vp ≤ keyAt v (hoareLoop v vp t pi pj fuel).1 x)
  | 0, t, pi, pj, _, _, hij, _, _, hfuel, _, _, _, _ =>
    absurd hfuel (by omega)
  | fuel + 1, t, pi, pj, hlen, hpl, hij, hjr, hpr2, hfuel, hsl, hsr,
      hinvl, hinvr => by
    rw [hoareLoop]
    have hs1 := @scanUp_post v vp t t.length pi (pr - 1) (by omega)
      (by omega) (by rw [hsr]; omega)
    have hs2 := @scanDown_post v vp t t.length pj pl (by omega)
      (by omega) (by simp [hsl])
    set pi1 := scanUp v vp t pi t.length with hpi1
    set pj1 := scanDown v vp t pj t.length with hpj1
    by_cases hcross : pj1 ≤ pi1
    · rw [if_pos hcross]
      refine ⟨Confined.refl _ _ _, ⟨by omega, hs1.1.2⟩, hsr,
        not_lt.mp hs1.2.1, ?_, ?_⟩
      · intro x hx1 hx2
        by_cases hx : x ≤ pi
        · exact hinvl x hx1 hx
        · exact le_of_lt (hs1.2.2 x (by omega) hx2)
      · intro x hx1 hx2
        by_cases hx : pj ≤ x
        · exact hinvr x hx hx2
        · exact le_of_lt (hs2.2.2 x (by omega) (by omega))
    · rw [if_neg hcross]
      have hij1 : pi1 < pj1 := by omega
      have hbi : pi1 < t.length := by omega
      have hbj : pj1 < t.length := by omega
      have hne : pi1 ≠ pj1 := by omega
      have kswap_i : keyAt v (lswap t pi1 pj1) pi1 = keyAt v t pj1 :=
        keyAt_lswap_left hbi hne
      have kswap_j : keyAt v (lswap t pi1 pj1) pj1 = keyAt v t pi1 :=
        keyAt_lswap_right hbj
      have kswap_o : ∀ x, x ≠ pi1 → x ≠ pj1 →
          keyAt v (lswap t pi1 pj1) x = keyAt v t x :=
        fun x h1 h2 => keyAt_lswap_other h1 h2
      have hpil : pi < pi1 := hs1.1.1
      have hpjl : pj1 < pj := hs2.1.2
      have ih := @hoareLoop_post v vp pl pr fuel (lswap t pi1 pj1) pi1 pj1
        (by rw [length_lswap]; exact hlen) (by omega) hij1 (by omega)
        hpr2 (by omega)
        (by rw [kswap_o pl (by omega) (by omega)]; exact hsl)
        (by rw [kswap_o (pr - 1) (by omega) (by omega)]; exact hsr)
        (by
          intro x hx1 hx2
          by_cases hx : x = pi1
          · subst hx
            rw [kswap_i]
            exact not_lt.mp hs2.2.1
          · rw [kswap_o x hx (by omega)]
            by_cases hx3 : x ≤ pi
            · exact hinvl x hx1 hx3
            · exact le_of_lt (hs1.2.2 x (by omega) (by omega)))
        (by
          intro x hx1 hx2
          by_cases hx : x = pj1
          · subst hx
            rw [kswap_j]
            exact not_lt.mp hs1.2.1
          · rw [kswap_o x (by omega) hx]
            by_cases hx3 : pj ≤ x
            · exact hinvr x hx3 hx2
            · exact le_of_lt (hs2.2.2 x (by omega) (by omega)))
      have hsw : Confined (lswap t pi1 pj1) t (pl + 1) (pr - 2) :=
        lswap_confined (by omega) (by omega) (by omega) (by omega) hbi hbj
      exact ⟨ih.1.trans hsw, ih.2.1, ih.2.2.1, ih.2.2.2.1, ih.2.2.2.2.1,
        ih.2.2.2.2.2⟩


theorem csw_post (v t : List ℕ) (X Y : ℕ) (hX : X < t.length)
    (hY : Y < t.length) (hXY : X ≠ Y) :
    keyAt v (if keyAt v t X < keyAt v t Y then lswap t X Y else t) Y =
        min (keyAt v t X) (keyAt v t Y) ∧
    keyAt v (if keyAt v t X < keyAt v t Y then lswap t X Y else t) X =
        max (keyAt v t X) (keyAt v t Y) ∧
    (∀ z, z ≠ X → z ≠ Y →
      keyAt v (if keyAt v t X < keyAt v t Y then lswap t X Y else t) z =
        keyAt v t z) ∧
    Confined (if keyAt v t X < keyAt v t Y then lswap t X Y else t) t
      (min X Y) (max X Y) := by
  by_cases hc : keyAt v t X < keyAt v t Y
  · rw [if_pos hc]
    refine ⟨?_, ?_, fun z h1 h2 => keyAt_lswap_other h1 h2, ?_⟩
    · rw [keyAt_lswap_right hY]
      exact (min_eq_left hc.le).symm
    · rw [keyAt_lswap_left hX hXY]
      exact (max_eq_right hc.le).symm
    · exact lswap_confined (min_le_left X Y) (le_max_left X Y)
        (min_le_right X Y) (le_max_right X Y) hX hY
  · rw [if_neg hc]
    refine ⟨(min_eq_right (not_lt.mp hc)).symm,
      (max_eq_left (not_lt.mp hc)).symm, fun z _ _ => rfl,
      Confined.refl _ _ _⟩

theorem partitionR_post (v t : List ℕ) (pl pr : ℕ) (h16 : 15 < pr - pl)
    (hlen : pr < t.length) :
    Confined (partitionR v t pl pr).1 t pl pr ∧
    pl + 1 ≤ (partitionR v t pl pr).2 ∧
    (partitionR v t pl pr).2 ≤ pr - 1 ∧
    (∀ x, pl ≤ x → x < (partitionR v t pl pr).2 →
      keyAt v (partitionR v t pl pr).1 x ≤
        keyAt v (partitionR v t pl pr).1 (partitionR v t pl pr).2) ∧
    (∀ x, (partitionR v t pl pr).2 < x → x ≤ pr →
      keyAt v (partitionR v t pl pr).1 (partitionR v t pl pr).2 ≤
        keyAt v (partitionR v t pl pr).1 x) := by
  set pm := pl + (pr - pl) / 2 with hpm
  set t1 := if keyAt v t pm < keyAt v t pl then lswap t pm pl else t
    with h_t1
  set t2 := if keyAt v t1 pr < keyAt v t1 pm then lswap t1 pr pm else t1
    with h_t2
  set t3 := if keyAt v t2 pm < keyAt v t2 pl then lswap t2 pm pl else t2
    with h_t3
  set vp := keyAt v t3 pm with hvp
  set t4 := lswap t3 pm (pr - 1) with h_t4
  set s := hoareLoop v vp t4 pl (pr - 1) t4.length with h_s
  have hdef : partitionR v t pl pr = (lswap s.1 s.2 (pr - 1), s.2) := rfl
  have hpmb : pl + 8 ≤ pm ∧ pm + 2 ≤ pr := by
    constructor <;> omega
  have hc1 := csw_post v t pm pl (by omega) (by omega) (by omega)
  have hl1 : t1.length = t.length := hc1.2.2.2.len
  have hc2 := csw_post v t1 pr pm (by omega) (by omega) (by omega)
  have hl2 : t2.length = t.length := by rw [hc2.2.2.2.len, hl1]
  have hc3 := csw_post v t2 pm pl (by omega) (by omega) (by omega)
  have hl3 : t3.length = t.length := by rw [hc3.2.2.2.len, hl2]
  -- median facts on t3
  have hm1 : keyAt v t3 pl ≤ vp := by
    rw [hvp, hc3.1, hc3.2.1]
    exact min_le_max
  have hm2 : vp ≤ keyAt v t3 pr := by
    have e1 : keyAt v t3 pr = keyAt v t2 pr :=
      hc3.2.2.1 pr (by omega) (by omega)
    have e2 : keyAt v t2 pl = keyAt v t1 pl :=
      hc2.2.2.1 pl (by omega) (by omega)
    have hAB : keyAt v t1 pl ≤ keyAt v t1 pm := by
      rw [hc1.1, hc1.2.1]
      exact min_le_max
    rw [hvp, hc3.2.1, e1, hc2.2.1, hc2.1, e2]
    exact max_le min_le_max (hAB.trans (le_max_right _ _))
  -- t4 facts
  have hl4 : t4.length = t.length := by
    rw [h_t4, length_lswap, hl3]
  have h4a : keyAt v t4 (pr - 1) = vp := by
    rw [h_t4, keyAt_lswap_right (by omega)]
  have h4b : keyAt v t4 pl = keyAt v t3 pl :=
    keyAt_lswap_other (by omega) (by omega)
  have h4c : keyAt v t4 pr = keyAt v t3 pr :=
    keyAt_lswap_other (by omega) (by omega)
  have hih := @hoareLoop_post v vp pl pr t4.length t4 pl (pr - 1)
    (by omega) (le_refl pl) (by omega) (le_refl _) (by omega) (by omega)
    (by rw [h4b]; exact hm1) h4a
    (fun x hx1 hx2 => by
      have hx : x = pl := by omega
      rw [hx, h4b]; exact hm1)
    (fun x hx1 hx2 => by
      by_cases hx : x = pr - 1
      · rw [hx, h4a]
      · have hx2' : x = pr := by omega
        rw [hx2', h4c]; exact hm2)
  have hslen : s.1.length = t.length := by rw [hih.1.len, hl4]
  rw [hdef]
  have hs2a : pl + 1 ≤ s.2 := hih.2.1.1
  have hs2b : s.2 ≤ pr - 1 := hih.2.1.2
  have hkeymid : keyAt v (lswap s.1 s.2 (pr - 1)) s.2 = vp := by
    by_cases he : s.2 = pr - 1
    · rw [he, keyAt_lswap_right (by omega)]
      exact hih.2.2.1
    · rw [keyAt_lswap_left (by omega) he]
      exact hih.2.2.1
  have hc4 : Confined t4 t3 pl pr := by
    rw [h_t4]
    exact lswap_confined (by omega) (by omega) (by omega) (by omega)
      (by omega) (by omega)
  refine ⟨?_, hs2a, hs2b, ?_, ?_⟩
  · have cfin : Confined (lswap s.1 s.2 (pr - 1)) s.1 pl pr :=
      lswap_confined (by omega) (by omega) (by omega) (by omega)
        (by omega) (by omega)
    refine cfin.trans ((hih.1.mono (by omega) (by omega)).trans
      (hc4.trans ((hc3.2.2.2.mono (le_min (by omega) (le_refl pl))
          (max_le (by omega) (by omega))).trans
        ((hc2.2.2.2.mono (le_min (by omega) (by omega))
            (max_le (by omega) (by omega))).trans
          (hc1.2.2.2.mono (le_min (by omega) (le_refl pl))
            (max_le (by omega) (by omega)))))))
  · intro x hx1 hx2
    rw [hkeymid, keyAt_lswap_other (by omega) (by omega)]
    exact hih.2.2.2.2.1 x hx1 hx2
  · intro x hx1 hx2
    rw [hkeymid]
    by_cases hx : x = pr - 1
    · rw [hx, keyAt_lswap_right (by omega)]
      exact hih.2.2.2.1
    · rw [keyAt_lswap_other (by omega) hx]
      exact hih.2.2.2.2.2 x hx1 hx2


theorem hKey_eq_keyAt (v t : List ℕ) (pl k : ℕ) :
    hKey v t pl k = keyAt v t (pl + k - 1) := rfl

theorem hKey_hSet_self {t : List ℕ} {pl k : ℕ} (v : List ℕ)
    (h : pl + k - 1 < t.length) (x : ℕ) :
    hKey v (hSet t pl k x) pl k = v.getD x 0 := by
  rw [hKey, hGet, hSet, lget_set_self h]

theorem hKey_hSet_ne {t : List ℕ} {pl k k2 : ℕ} (v : List ℕ)
    (hk : 1 ≤ k) (hk2 : 1 ≤ k2) (h : k ≠ k2) (x : ℕ) :
    hKey v (hSet t pl k x) pl k2 = hKey v t pl k2 := by
  rw [hKey, hGet, hSet, lget_set_ne (by omega), ← hGet, ← hKey]

theorem hGet_hSet_ne {t : List ℕ} {pl k k2 : ℕ}
    (hk : 1 ≤ k) (hk2 : 1 ≤ k2) (h : k ≠ k2) (x : ℕ) :
    hGet (hSet t pl k x) pl k2 = hGet t pl k2 := by
  rw [hGet, hSet, lget_set_ne (by omega), ← hGet]



/-- In a full heap every cell is at most the root. -/
theorem heap_root_max {v t : List ℕ} {pl n : ℕ}
    (h : HeapFrom v t pl 1 n) :
    ∀ k, 1 ≤ k → k ≤ n → hKey v t pl k ≤ hKey v t pl 1 := by
  intro k
  induction k using Nat.strong_induction_on with
  | _ k ih =>
    intro hk1 hkn
    by_cases hk : k = 1
    · rw [hk]
    · have h2 : 2 ≤ k := by omega
      have hp := h k h2 hkn (by omega)
      exact hp.trans (ih (k / 2) (by omega) (by omega) (by omega))


theorem siftLoop_spec {v : List ℕ} {pl vtmp l n tmp : ℕ}
    (hvt : v.getD tmp 0 = vtmp) (hl : 1 ≤ l) :
    ∀ (fuel : ℕ) (t : List ℕ) (i j : ℕ),
    pl + n - 1 < t.length →
    l ≤ i → i ≤ n → j = 2 * i → n + 1 - i ≤ fuel →
    HeapExceptAt v t pl l n i →
    (i ≠ l → l ≤ i / 2 ∧ vtmp ≤ hKey v t pl (i / 2) ∧
      (∀ c, c / 2 = i → c ≤ n → hKey v t pl c ≤ hKey v t pl (i / 2))) →
    (1 ≤ (siftLoop v pl vtmp t i j n fuel).2 ∧
      (siftLoop v pl vtmp t i j n fuel).2 ≤ n) ∧
    Confined (hSet (siftLoop v pl vtmp t i j n fuel).1 pl
        (siftLoop v pl vtmp t i j n fuel).2 tmp)
      (hSet t pl i tmp) pl (pl + n - 1) ∧
    HeapFrom v (hSet (siftLoop v pl vtmp t i j n fuel).1 pl
        (siftLoop v pl vtmp t i j n fuel).2 tmp) pl l n
  | 0, t, i, j, hlen, hli, hin, hj, hfuel, hgood, hhole =>
      absurd hfuel (by omega)
  | fuel + 1, t, i, j, hlen, hli, hin, hj, hfuel, hgood, hhole => by
    rw [siftLoop]
    have hipos : pl + i - 1 < t.length := by omega
    have hresk : hKey v (hSet t pl i tmp) pl i = vtmp := by
      rw [hKey_hSet_self v hipos, hvt]
    have hresko : ∀ c, 1 ≤ c → c ≠ i →
        hKey v (hSet t pl i tmp) pl c = hKey v t pl c :=
      fun c hc hne => hKey_hSet_ne v (by omega) hc (fun hh => hne hh.symm) _
    by_cases hjn : j ≤ n
    · rw [if_pos hjn]
      set j1 := if j < n ∧ hKey v t pl j < hKey v t pl (j + 1) then j + 1
        else j with hj1def
      have hj1b : j ≤ j1 ∧ j1 ≤ n ∧ j1 ≤ j + 1 := by
        rw [hj1def]
        split
        · refine ⟨by omega, by omega, by omega⟩
        · exact ⟨le_refl j, hjn, by omega⟩
      have hj1half : j1 / 2 = i := by omega
      have hmax : ∀ c, c / 2 = i → c ≤ n → hKey v t pl c ≤ hKey v t pl j1 := by
        intro c hc hcn
        have hcj : c = j ∨ c = j + 1 := by omega
        rw [hj1def]
        split
        · rename_i hsel
          rcases hcj with hcj | hcj
          · rw [hcj]; exact le_of_lt hsel.2
          · rw [hcj]
        · rename_i hsel
          rcases hcj with hcj | hcj
          · rw [hcj]
          · rw [hcj]
            have hjln : j < n := by omega
            have := fun hh => hsel ⟨hjln, hh⟩
            omega
      by_cases hpr : vtmp < hKey v t pl j1
      · rw [if_pos hpr]
        have hlt' : pl + n - 1 < (hSet t pl i (hGet t pl j1)).length := by
          rw [hSet, List.length_set]
          exact hlen
        have hij1 : i < j1 := by omega
        have hkt' : hKey v (hSet t pl i (hGet t pl j1)) pl i =
            hKey v t pl j1 := by
          rw [hKey_hSet_self v hipos]
          rfl
        have hkto : ∀ c, 1 ≤ c → c ≠ i →
            hKey v (hSet t pl i (hGet t pl j1)) pl c = hKey v t pl c :=
          fun c hc hne =>
            hKey_hSet_ne v (by omega) hc (fun hh => hne hh.symm) _
        have ih := @siftLoop_spec v pl vtmp l n tmp hvt hl fuel
          (hSet t pl i (hGet t pl j1)) j1 (2 * j1) hlt'
          (by omega) hj1b.2.1 rfl (by omega)
          (by
            intro c h2c hcn hlc hcne
            by_cases hci : c = i
            · subst hci
              have hcl : c ≠ l := by
                intro hh
                rw [hh] at hlc
                omega
              obtain ⟨hh1, hh2, hh3⟩ := hhole hcl
              rw [hkt', hkto (c / 2) (by omega) (by omega)]
              exact hh3 j1 hj1half hj1b.2.1
            · by_cases hcpi : c / 2 = i
              · rw [hkto c (by omega) hci, hcpi, hkt']
                exact hmax c hcpi hcn
              · rw [hkto c (by omega) hci, hkto (c / 2) (by omega) hcpi]
                exact hgood c h2c hcn hlc hcpi)
          (by
            intro _
            refine ⟨by omega, ?_, ?_⟩
            · rw [hj1half, hkt']
              exact le_of_lt hpr
            · intro c hc hcn
              have hcb : 2 * j1 ≤ c := by omega
              rw [hj1half, hkt', hkto c (by omega) (by omega)]
              have hgc := hgood c (by omega) hcn (by omega)
                (by rw [hc]; omega)
              rw [hc] at hgc
              exact hgc)
        have heq : hSet (hSet t pl i (hGet t pl j1)) pl j1 tmp =
            lswap (hSet t pl i tmp) (pl + i - 1) (pl + j1 - 1) := by
          rw [lswap]
          have e1 : lget (hSet t pl i tmp) (pl + j1 - 1) =
              lget t (pl + j1 - 1) := by
            rw [hSet, lget_set_ne (by omega)]
          have e2 : lget (hSet t pl i tmp) (pl + i - 1) = tmp := by
            rw [hSet, lget_set_self hipos]
          rw [e1, e2]
          rw [hSet, hSet, hSet, List.set_set]
          rfl
        rw [heq] at ih
        have hsw : Confined
            (lswap (hSet t pl i tmp) (pl + i - 1) (pl + j1 - 1))
            (hSet t pl i tmp) pl (pl + n - 1) :=
          lswap_confined (by omega) (by omega) (by omega) (by omega)
            (by rw [hSet, List.length_set]; omega)
            (by rw [hSet, List.length_set]; omega)
        exact ⟨ih.1, (ih.2.1.trans hsw), ih.2.2⟩
      · rw [if_neg hpr]
        refine ⟨⟨by omega, hin⟩, Confined.refl _ _ _, ?_⟩
        intro c h2c hcn hlc
        by_cases hci : c = i
        · subst hci
          have hcl : c ≠ l := by
            intro hh
            rw [hh] at hlc
            omega
          obtain ⟨hh1, hh2, _⟩ := hhole hcl
          rw [hresk, hresko (c / 2) (by omega) (by omega)]
          exact hh2
        · by_cases hcpi : c / 2 = i
          · rw [hresko c (by omega) hci, hcpi, hresk]
            exact le_trans (hmax c hcpi hcn) (not_lt.mp hpr)
          · rw [hresko c (by omega) hci, hresko (c / 2) (by omega) hcpi]
            exact hgood c h2c hcn hlc hcpi
    · rw [if_neg hjn]
      refine ⟨⟨by omega, hin⟩, Confined.refl _ _ _, ?_⟩
      intro c h2c hcn hlc
      by_cases hci : c = i
      · subst hci
        have hcl : c ≠ l := by
          intro hh
          rw [hh] at hlc
          omega
        obtain ⟨hh1, hh2, _⟩ := hhole hcl
        rw [hresk, hresko (c / 2) (by omega) (by omega)]
        exact hh2
      · by_cases hcpi : c / 2 = i
        · exact absurd hcn (by omega)
        · rw [hresko c (by omega) hci, hresko (c / 2) (by omega) hcpi]
          exact hgood c h2c hcn hlc hcpi


theorem hSet_hGet_self (t : List ℕ) (pl k : ℕ) :
    hSet t pl k (hGet t pl k) = t := by
  rw [hSet, hGet, set_lget_self]

theorem sift_spec (v : List ℕ) (pl : ℕ) (t : List ℕ) (tmp l n : ℕ)
    (hl : 1 ≤ l) (hln : l ≤ n) (hlen : pl + n - 1 < t.length)
    (hgood : HeapExceptAt v t pl l n l) :
    Confined (sift v pl t tmp l n) (hSet t pl l tmp) pl (pl + n - 1) ∧
    HeapFrom v (sift v pl t tmp l n) pl l n := by
  have h := @siftLoop_spec v pl (v.getD tmp 0) l n tmp rfl hl (n + 1) t l
    (2 * l) hlen (le_refl l) hln rfl (by omega) hgood
    (fun hc => absurd rfl hc)
  exact ⟨h.2.1, h.2.2⟩

theorem buildFrom_spec {v : List ℕ} {pl n : ℕ} :
    ∀ (l : ℕ) (t : List ℕ), pl + n - 1 < t.length → l ≤ n →
    HeapFrom v t pl (l + 1) n →
    Confined (buildFrom v pl n l t) t pl (pl + n - 1) ∧
    HeapFrom v (buildFrom v pl n l t) pl 1 n
  | 0, t, _, _, hheap => ⟨Confined.refl _ _ _, hheap⟩
  | l + 1, t, hlen, hln, hheap => by
    rw [buildFrom]
    have hs := sift_spec v pl t (hGet t pl (l + 1)) (l + 1) n (by omega)
      hln hlen
      (fun c h2 hn hp hne => hheap c h2 hn (by omega))
    rw [hSet_hGet_self] at hs
    have ih := @buildFrom_spec v pl n l
      (sift v pl t (hGet t pl (l + 1)) (l + 1) n)
      (by rw [hs.1.len]; exact hlen) (by omega) hs.2
    exact ⟨ih.1.trans hs.1, ih.2⟩

theorem extractLoop_spec {v : List ℕ} {pl n0 : ℕ} :
    ∀ (m : ℕ) (t : List ℕ),
    pl + n0 - 1 < t.length → m ≤ n0 →
    HeapFrom v t pl 1 m →
    (∀ x k, m < x → x ≤ n0 → 1 ≤ k → k ≤ m →
      hKey v t pl k ≤ hKey v t pl x) →
    (∀ x y, m < x → x ≤ y → y ≤ n0 → hKey v t pl x ≤ hKey v t pl y) →
    Confined (extractLoop v pl m t) t pl (pl + n0 - 1) ∧
    (∀ x y, 1 ≤ x → x ≤ y → y ≤ n0 →
      hKey v (extractLoop v pl m t) pl x ≤
        hKey v (extractLoop v pl m t) pl y)
  | 0, t, hlen, hmn, hheap, htge, htsort => by
    rw [extractLoop]
    refine ⟨Confined.refl _ _ _, ?_⟩
    intro x y hx hxy hy
    exact htsort x y (by omega) hxy hy
  | 1, t, hlen, hmn, hheap, htge, htsort => by
    rw [extractLoop]
    refine ⟨Confined.refl _ _ _, ?_⟩
    intro x y hx hxy hy
    by_cases hx1 : x = 1
    · by_cases hy1 : y = 1
      · rw [hx1, hy1]
      · exact htge y x (by omega) hy hx (by omega)
    · exact htsort x y (by omega) hxy hy
  | m + 2, t, hlen, hmn, hheap, htge, htsort => by
    rw [extractLoop]
    have hroot := heap_root_max hheap
    set B := hKey v t pl 1 with hB
    set tmp := hGet t pl (m + 2) with htmp
    set t1 := hSet t pl (m + 2) (hGet t pl 1) with ht1
    have hl1 : t1.length = t.length := by
      rw [ht1, hSet, List.length_set]
    have hk1top : hKey v t1 pl (m + 2) = B := by
      rw [ht1, hKey_hSet_self v (by omega)]
      rfl
    have hk1o : ∀ c, 1 ≤ c → c ≠ m + 2 → hKey v t1 pl c = hKey v t pl c :=
      fun c hc hne =>
        hKey_hSet_ne v (by omega) hc (fun hh => hne hh.symm) _
    have hs := sift_spec v pl t1 tmp 1 (m + 1) (le_refl 1) (by omega)
      (by omega)
      (by
        intro c h2 hn hp hne
        rw [hk1o c (by omega) (by omega), hk1o (c / 2) (by omega)
          (by omega)]
        exact hheap c h2 (by omega) hp)
    set t2 := sift v pl t1 tmp 1 (m + 1) with ht2
    have hA : hSet t1 pl 1 tmp = lswap t (pl + (m + 2) - 1) pl := by
      rw [lswap, ht1, htmp, hSet, hSet, hGet, hGet]
      have e : pl + 1 - 1 = pl := by omega
      rw [e]
    have hAc : Confined (hSet t1 pl 1 tmp) t pl (pl + n0 - 1) := by
      rw [hA]
      exact lswap_confined (by omega) (by omega) (by omega) (by omega)
        (by omega) (by omega)
    have hl2 : t2.length = t.length := by
      rw [hs.1.len, hSet, List.length_set, hl1]
    have hc2 : Confined t2 t pl (pl + n0 - 1) :=
      (hs.1.mono (le_refl pl) (by omega)).trans hAc
    -- keys of t2 above the shrunk heap
    have hk2hi : ∀ x, m + 1 < x → x ≤ n0 → hKey v t2 pl x = hKey v t1 pl x := by
      intro x hx1 hx2
      have := hs.1.outside (pl + x - 1) (Or.inr (by omega))
      rw [hKey, hGet, this, ← hGet, ← hKey]
      have h2 : lget (hSet t1 pl 1 tmp) (pl + x - 1) = lget t1 (pl + x - 1) := by
        rw [hSet, lget_set_ne (by omega)]
      rw [hKey, hGet, h2, ← hGet, ← hKey]
    have hbelow : ∀ x, m + 1 < x → x ≤ n0 → B ≤ hKey v t2 pl x := by
      intro x hx1 hx2
      rw [hk2hi x hx1 hx2]
      by_cases hx : x = m + 2
      · rw [hx, hk1top]
      · rw [hk1o x (by omega) hx]
        exact htge x 1 (by omega) hx2 (le_refl 1) (by omega)
    have habove : ∀ k, 1 ≤ k → k ≤ m + 1 → hKey v t2 pl k ≤ B := by
      have hseg := hs.1.forall_seg
        (by rw [hSet, List.length_set, hl1]; omega)
        (P := fun z => v.getD z 0 ≤ B)
        (by
          intro x hx1 hx2
          set k := x - pl + 1 with hk
          have hxk : x = pl + k - 1 := by omega
          have hkk : 1 ≤ k ∧ k ≤ m + 1 := by omega
          show v.getD (lget (hSet t1 pl 1 tmp) x) 0 ≤ B
          by_cases hk1 : k = 1
          · have hx0 : x = pl := by omega
            rw [hx0]
            have : lget (hSet t1 pl 1 tmp) pl = tmp := by
              rw [hSet, (by omega : pl + 1 - 1 = pl),
                lget_set_self (by omega)]
            rw [this, htmp]
            exact hroot (m + 2) (by omega) (le_refl _)
          · have : lget (hSet t1 pl 1 tmp) x = lget t1 x := by
              rw [hSet, lget_set_ne (by omega)]
            rw [this]
            have e : v.getD (lget t1 x) 0 = hKey v t1 pl k := by
              rw [hKey, hGet, hxk]
            rw [e, hk1o k (by omega) (by omega)]
            exact hroot k (by omega) (by omega))
      intro k hk1 hk2
      have := hseg (pl + k - 1) (by omega) (by omega)
      rw [hKey, hGet]
      exact this
    have ih := @extractLoop_spec v pl n0 (m + 1) t2
      (by rw [hl2]; exact hlen) (by omega) hs.2
      (fun x k hx1 hx2 hk1 hk2 =>
        (habove k hk1 hk2).trans (hbelow x hx1 hx2))
      (by
        intro x y hx1 hxy hy
        by_cases hx : x = m + 2
        · subst hx
          rw [hk2hi (m + 2) (by omega) (by omega), hk1top]
          exact hbelow y (by omega) hy
        · rw [hk2hi x (by omega) (by omega), hk2hi y (by omega) (by omega),
            hk1o x (by omega) (by omega), hk1o y (by omega) (by omega)]
          exact htsort x y (by omega) hxy hy)
    exact ⟨ih.1.trans hc2, ih.2⟩


theorem heapsortRange_spec (v t : List ℕ) (pl pr : ℕ)
    (hlen : pr < t.length) :
    Confined (heapsortRange v t pl pr) t pl pr ∧
    SortedOn v (heapsortRange v t pl pr) pl pr := by
  rw [heapsortRange]
  by_cases hple : pl ≤ pr
  · set n := pr + 1 - pl with hn
    have hn1 : 1 ≤ n := by omega
    have hlen2 : pl + n - 1 < t.length := by omega
    have hb := @buildFrom_spec v pl n (n / 2) t hlen2 (by omega)
      (by
        intro c h2 hcn hp
        exact absurd hcn (by omega))
    have he := @extractLoop_spec v pl n n (buildFrom v pl n (n / 2) t)
      (by rw [hb.1.len]; exact hlen2) (le_refl n) hb.2
      (fun x k hx1 hx2 _ _ => absurd hx2 (by omega))
      (fun x y hx1 hxy hy => absurd (le_trans hxy hy) (by omega))
    have hprend : pl + n - 1 = pr := by omega
    constructor
    · have := (he.1.trans hb.1)
      rw [hprend] at this
      exact this
    · intro i j h1 h2 h3
      have hi := he.2 (i - pl + 1) (j - pl + 1) (by omega) (by omega)
        (by omega)
      rw [hKey_eq_keyAt, hKey_eq_keyAt] at hi
      rw [(by omega : pl + (i - pl + 1) - 1 = i),
        (by omega : pl + (j - pl + 1) - 1 = j)] at hi
      exact hi
  · have hn0 : pr + 1 - pl = 0 := by omega
    rw [hn0]
    have h1 : buildFrom v pl 0 (0 / 2) t = t := by
      rw [(by omega : (0 : ℕ) / 2 = 0), buildFrom]
    rw [h1, extractLoop]
    refine ⟨Confined.refl _ _ _, ?_⟩
    intro i j hi hij hj
    exact absurd (le_trans hi (le_trans hij hj)) hple


theorem Confined.keys_le {v t2 t1 : List ℕ} {lo hi : ℕ}
    (h : Confined t2 t1 lo hi) (hhi : hi < t1.length) (c : ℕ)
    (hp : ∀ x, lo ≤ x → x ≤ hi → keyAt v t1 x ≤ c) :
    ∀ x, lo ≤ x → x ≤ hi → keyAt v t2 x ≤ c :=
  h.forall_seg hhi (P := fun z => v.getD z 0 ≤ c) hp

theorem Confined.keys_ge {v t2 t1 : List ℕ} {lo hi : ℕ}
    (h : Confined t2 t1 lo hi) (hhi : hi < t1.length) (c : ℕ)
    (hp : ∀ x, lo ≤ x → x ≤ hi → c ≤ keyAt v t1 x) :
    ∀ x, lo ≤ x → x ≤ hi → c ≤ keyAt v t2 x :=
  h.forall_seg hhi (P := fun z => c ≤ v.getD z 0) hp

theorem sortRange_stitch (v R : List ℕ) (pl pi pr : ℕ)
    (hp1 : pl + 1 ≤ pi) (hp2 : pi ≤ pr - 1) (_hp3 : pl + 2 ≤ pr)
    (hsl : SortedOn v R pl (pi - 1)) (hsr : SortedOn v R (pi + 1) pr)
    (hle : ∀ x, pl ≤ x → x < pi → keyAt v R x ≤ keyAt v R pi)
    (hge : ∀ x, pi < x → x ≤ pr → keyAt v R pi ≤ keyAt v R x) :
    SortedOn v R pl pr := by
  intro i j hi hij hj
  by_cases hjp : j < pi
  · exact hsl i j hi hij (by omega)
  · by_cases hip : pi < i
    · exact hsr i j (by omega) hij hj
    · by_cases hie : i = pi
      · subst hie
        by_cases hje : j = i
        · subst hje; exact le_refl _
        · exact hge j (by omega) hj
      · by_cases hje : j = pi
        · subst hje
          exact hle i hi (by omega)
        · exact (hle i hi (by omega)).trans (hge j (by omega) hj)

theorem sortRange_spec {v : List ℕ} :
    ∀ (fuel : ℕ) (t : List ℕ) (pl pr : ℕ) (d : ℤ),
    pr < t.length → pr - pl < fuel →
    Confined (sortRange v fuel t pl pr d).1 t pl pr ∧
    SortedOn v (sortRange v fuel t pl pr d).1 pl pr
  | 0, t, pl, pr, d, _, hfuel => absurd hfuel (by omega)
  | fuel + 1, t, pl, pr, d, hlen, hfuel => by
    rw [sortRange]
    by_cases h16 : 15 < pr - pl
    · rw [if_pos h16]
      by_cases hd : d < 0
      · rw [if_pos hd]
        exact heapsortRange_spec v t pl pr hlen
      · rw [if_neg hd]
        have hpp := partitionR_post v t pl pr h16 hlen
        set s := partitionR v t pl pr with hsdef
        obtain ⟨hconf, hpi1, hpi2, hkl, hkr⟩ := hpp
        have hslen : s.1.length = t.length := hconf.len
        set vp := keyAt v s.1 s.2 with hvp
        by_cases hb : s.2 - pl < pr - s.2
        · rw [if_pos hb]
          have ha := @sortRange_spec v fuel s.1 pl (s.2 - 1) (d - 1)
            (by omega) (by omega)
          set a := sortRange v fuel s.1 pl (s.2 - 1) (d - 1) with hadef
          have halen : a.1.length = t.length := by
            rw [ha.1.len, hslen]
          have hrb := @sortRange_spec v fuel a.1 (s.2 + 1) pr a.2
            (by omega) (by omega)
          set R := sortRange v fuel a.1 (s.2 + 1) pr a.2 with hRdef
          have hRlen : R.1.length = t.length := by
            rw [hrb.1.len, halen]
          -- keys at and below the pivot survive the second recursion
          have hRlow : ∀ x, x ≤ s.2 → keyAt v R.1 x = keyAt v a.1 x := by
            intro x hx
            have := hrb.1.outside x (Or.inl (by omega))
            rw [keyAt, this, ← keyAt]
          -- keys at and above the pivot survive the first recursion
          have hahigh : ∀ x, s.2 ≤ x → keyAt v a.1 x = keyAt v s.1 x := by
            intro x hx
            have := ha.1.outside x (Or.inr (by omega))
            rw [keyAt, this, ← keyAt]
          refine ⟨((hrb.1.mono (by omega) (le_refl pr)).trans
            ((ha.1.mono (le_refl pl) (by omega)).trans hconf)), ?_⟩
          have hRpiv : keyAt v R.1 s.2 = vp := by
            rw [hRlow s.2 (le_refl _), hahigh s.2 (le_refl _)]
          refine sortRange_stitch v R.1 pl s.2 pr hpi1 hpi2 (by omega)
            ?_ hrb.2 ?_ ?_
          · intro i j hi hij hj
            rw [hRlow i (by omega), hRlow j (by omega)]
            exact ha.2 i j hi hij hj
          · have htrans := ha.1.keys_le (v := v) (by omega) vp
              (fun x hx1 hx2 => hkl x hx1 (by omega))
            intro x hx1 hx2
            rw [hRpiv, hRlow x (by omega)]
            exact htrans x hx1 (by omega)
          · intro x hx1 hx2
            rw [hRpiv]
            have h1 : keyAt v a.1 x = keyAt v s.1 x := hahigh x (by omega)
            have hge := hrb.1.keys_ge (v := v) (by omega) vp
              (fun y hy1 hy2 => by
                rw [hahigh y (by omega)]
                exact hkr y (by omega) hy2)
            exact hge x (by omega) hx2
        · rw [if_neg hb]
          have ha := @sortRange_spec v fuel s.1 (s.2 + 1) pr (d - 1)
            (by omega) (by omega)
          set a := sortRange v fuel s.1 (s.2 + 1) pr (d - 1) with hadef
          have halen : a.1.length = t.length := by
            rw [ha.1.len, hslen]
          have hrb := @sortRange_spec v fuel a.1 pl (s.2 - 1) a.2
            (by omega) (by omega)
          set R := sortRange v fuel a.1 pl (s.2 - 1) a.2 with hRdef
          have hRlen : R.1.length = t.length := by
            rw [hrb.1.len, halen]
          have hRhigh : ∀ x, s.2 ≤ x → keyAt v R.1 x = keyAt v a.1 x := by
            intro x hx
            have := hrb.1.outside x (Or.inr (by omega))
            rw [keyAt, this, ← keyAt]
          have halow : ∀ x, x ≤ s.2 → keyAt v a.1 x = keyAt v s.1 x := by
            intro x hx
            have := ha.1.outside x (Or.inl (by omega))
            rw [keyAt, this, ← keyAt]
          refine ⟨((hrb.1.mono (le_refl pl) (by omega)).trans
            ((ha.1.mono (by omega) (le_refl pr)).trans hconf)), ?_⟩
          have hRpiv : keyAt v R.1 s.2 = vp := by
            rw [hRhigh s.2 (le_refl _), halow s.2 (le_refl _)]
          refine sortRange_stitch v R.1 pl s.2 pr hpi1 hpi2 (by omega)
            hrb.2 ?_ ?_ ?_
          · intro i j hi hij hj
            rw [hRhigh i (by omega), hRhigh j (by omega)]
            exact ha.2 i j hi hij hj
          · intro x hx1 hx2
            rw [hRpiv]
            have hle2 := hrb.1.keys_le (v := v) (by omega) vp
              (fun y hy1 hy2 => by
                rw [halow y (by omega)]
                exact hkl y hy1 (by omega))
            exact hle2 x hx1 (by omega)
          · have htrans := ha.1.keys_ge (v := v) (by omega) vp
              (fun x hx1 hx2 => hkr x (by omega) hx2)
            intro x hx1 hx2
            rw [hRpiv, hRhigh x (by omega)]
            exact htrans x (by omega) hx2
    · rw [if_neg h16]
      exact insertionSortRange_spec v t pl pr hlen


theorem argsortNumpy_perm (v : List ℕ) :
    List.Perm (argsortNumpy v) (List.range v.length) := by
  rw [argsortNumpy]
  by_cases hn : v.length = 0
  · rw [hn]
    have he : (sortRange v (0 + 1) (List.range 0) 0 (0 - 1)
        (2 * (Nat.log2 0 : ℤ))).1 = [] := rfl
    rw [he]
    exact List.Perm.refl _
  · have h := @sortRange_spec v (v.length + 1) (List.range v.length) 0
      (v.length - 1) (2 * (Nat.log2 v.length : ℤ))
      (by rw [List.length_range]; omega) (by omega)
    exact h.1.perm

theorem argsortNumpy_sorted (v : List ℕ) :
    SortedOn v (argsortNumpy v) 0 (v.length - 1) := by
  rw [argsortNumpy]
  by_cases hn : v.length = 0
  · rw [hn]
    intro i j h1 h2 h3
    have hij : i = j := by omega
    rw [hij]
  · have h := @sortRange_spec v (v.length + 1) (List.range v.length) 0
      (v.length - 1) (2 * (Nat.log2 v.length : ℤ))
      (by rw [List.length_range]; omega) (by omega)
    exact h.2

theorem argsortNumpy_length (v : List ℕ) :
    (argsortNumpy v).length = v.length := by
  rw [(argsortNumpy_perm v).length_eq, List.length_range]

theorem orderOf_perm (seg : List ℤ) :
    List.Perm (orderOf seg) (List.range (posLabels seg).length) := by
  have h := argsortNumpy_perm (newsegmOfPos (posLabels seg))
  rw [newsegmOfPos, List.length_map] at h
  exact h


theorem mem_insOne (x : ℤ) (ys : List ℤ) (a : ℤ) :
    a ∈ npUnique.insOne x ys ↔ a = x ∨ a ∈ ys := by
  induction ys with
  | nil => simp [npUnique.insOne]
  | cons y ys ih =>
    rw [npUnique.insOne]
    by_cases h1 : x < y
    · simp [h1]
    · by_cases h2 : x = y
      · subst h2
        rw [if_neg h1, if_pos rfl, List.mem_cons]
        tauto
      · simp only [h1, h2, if_false, List.mem_cons, ih]
        constructor
        · rintro (h | h | h)
          · exact Or.inr (Or.inl h)
          · exact Or.inl h
          · exact Or.inr (Or.inr h)
        · rintro (h | h | h)
          · exact Or.inr (Or.inl h)
          · exact Or.inl h
          · exact Or.inr (Or.inr h)

theorem insOne_sorted (x : ℤ) (ys : List ℤ)
    (h : List.Sorted (· < ·) ys) :
    List.Sorted (· < ·) (npUnique.insOne x ys) := by
  induction ys with
  | nil => simp [npUnique.insOne]
  | cons y ys ih =>
    rw [npUnique.insOne]
    rw [List.sorted_cons] at h
    by_cases h1 : x < y
    · rw [if_pos h1, List.sorted_cons]
      refine ⟨?_, List.sorted_cons.mpr h⟩
      intro b hb
      rcases List.mem_cons.mp hb with hb | hb
      · rw [hb]; exact h1
      · exact h1.trans (h.1 b hb)
    · by_cases h2 : x = y
      · rw [if_neg h1, if_pos h2]
        exact List.sorted_cons.mpr h
      · rw [if_neg h1, if_neg h2, List.sorted_cons]
        refine ⟨?_, ih h.2⟩
        intro b hb
        rcases (mem_insOne x ys b).mp hb with hb | hb
        · rw [hb]; omega
        · exact h.1 b hb

theorem npUnique_sorted (l : List ℤ) :
    List.Sorted (· < ·) (npUnique l) := by
  rw [npUnique]
  induction l with
  | nil => simp
  | cons a l ih => exact insOne_sorted a _ ih

theorem mem_npUnique (l : List ℤ) (a : ℤ) : a ∈ npUnique l ↔ a ∈ l := by
  rw [npUnique]
  induction l with
  | nil => simp
  | cons b l ih =>
    rw [List.foldr_cons, mem_insOne, List.mem_cons, ih]

theorem npUnique_nodup (l : List ℤ) : (npUnique l).Nodup :=
  (npUnique_sorted l).nodup


theorem rankIn_fold (sv : ℤ) :
    ∀ (l : List ℤ) (k acc : ℕ), l.Nodup →
    (l.enumFrom k).foldl (fun acc p => if sv = p.2 then p.1 else acc) acc
      = if sv ∈ l then k + List.indexOf sv l else acc
  | [], k, acc, _ => by simp
  | x :: l, k, acc, hnd => by
    rw [List.enumFrom_cons, List.foldl_cons]
    rw [List.nodup_cons] at hnd
    by_cases hx : sv = x
    · rw [if_pos hx]
      have hnm : sv ∉ l := by rw [hx]; exact hnd.1
      rw [rankIn_fold sv l (k + 1) k hnd.2, if_neg hnm,
        if_pos (by rw [hx]; exact List.mem_cons_self x l)]
      rw [hx, List.indexOf_cons_self]
      omega
    · rw [if_neg hx]
      rw [rankIn_fold sv l (k + 1) acc hnd.2]
      by_cases hm : sv ∈ l
      · rw [if_pos hm, if_pos (List.mem_cons_of_mem x hm)]
        rw [List.indexOf_cons_ne l (fun hh => hx hh.symm)]
        omega
      · rw [if_neg hm, if_neg (by simp [hx, hm])]

theorem rankIn_eq_indexOf (L : List ℤ) (hnd : L.Nodup) (sv : ℤ)
    (h : sv ∈ L) : rankIn L sv = List.indexOf sv L := by
  have h0 := rankIn_fold sv L 0 0 hnd
  rw [if_pos h] at h0
  rw [rankIn]
  exact h0.trans (by omega)

/-- Predicate facts: the four band masks are mutually exclusive. -/
theorem band_masks (z : ℤ) :
    (cortP z = true → bandNum z = some 0) ∧
    (deepP z = true → bandNum z = some 1) ∧
    (z = 255 → bandNum z = some 2) ∧
    (wmP z = true → bandNum z = some 3) := by
  simp only [cortP, deepP, wmP, bandNum, decide_eq_true_eq]
  refine ⟨?_, ?_, ?_, ?_⟩
  · intro h
    rw [if_pos (by simpa [cortP] using h)]
  · intro h
    rw [if_neg (by simp [cortP]; omega), if_pos (by simpa [deepP] using h)]
  · intro h
    rw [if_neg (by simp [cortP]; omega), if_neg (by simp [deepP]; omega),
      if_pos h]
  · intro h
    rw [if_neg (by simp [cortP]; omega), if_neg (by simp [deepP]; omega),
      if_neg (by omega), if_pos (by simpa [wmP] using h)]


theorem cortP_iff (z : ℤ) : cortP z = true ↔ 100 < z ∧ z < 200 := by
  simp [cortP]

theorem deepP_iff (z : ℤ) : deepP z = true ↔ 30 < z ∧ z < 100 := by
  simp [deepP]

theorem wmP_iff (z : ℤ) : wmP z = true ↔ z < 10 := by
  simp [wmP]

theorem labelsConcat_nodup (u : List ℤ) (hu : u.Nodup) :
    (labelsConcat u).Nodup := by
  have hassoc : labelsConcat u = u.filter cortP ++
      (u.filter deepP ++ ((255 : ℤ) :: u.filter wmP)) := by
    simp [labelsConcat, List.append_assoc]
  rw [hassoc, List.nodup_append]
  refine ⟨hu.filter _, ?_, ?_⟩
  · rw [List.nodup_append]
    refine ⟨hu.filter _, ?_, ?_⟩
    · rw [List.nodup_cons]
      refine ⟨?_, hu.filter _⟩
      intro hmem
      have := (List.mem_filter.mp hmem).2
      rw [wmP_iff] at this
      omega
    · intro a ha hb
      have h1 := (List.mem_filter.mp ha).2
      rw [deepP_iff] at h1
      rcases List.mem_cons.mp hb with hb | hb
      · omega
      · have h2 := (List.mem_filter.mp hb).2
        rw [wmP_iff] at h2
        omega
  · intro a ha hb
    have h1 := (List.mem_filter.mp ha).2
    rw [cortP_iff] at h1
    rcases List.mem_append.mp hb with hb | hb
    · have h2 := (List.mem_filter.mp hb).2
      rw [deepP_iff] at h2
      omega
    · rcases List.mem_cons.mp hb with hb | hb
      · omega
      · have h2 := (List.mem_filter.mp hb).2
        rw [wmP_iff] at h2
        omega

theorem mem_labelsConcat_cases (u : List ℤ) (z : ℤ)
    (hz : z ∈ labelsConcat u) :
    ((bandNum z).getD 4 = 0 ∧
      List.indexOf z (labelsConcat u) < (u.filter cortP).length) ∨
    ((bandNum z).getD 4 = 1 ∧
      (u.filter cortP).length ≤ List.indexOf z (labelsConcat u) ∧
      List.indexOf z (labelsConcat u) <
        (u.filter cortP).length + (u.filter deepP).length) ∨
    ((bandNum z).getD 4 = 2 ∧
      List.indexOf z (labelsConcat u) =
        (u.filter cortP).length + (u.filter deepP).length) ∨
    ((bandNum z).getD 4 = 3 ∧
      (u.filter cortP).length + (u.filter deepP).length + 1 ≤
        List.indexOf z (labelsConcat u)) := by
  have hassoc : labelsConcat u = u.filter cortP ++
      (u.filter deepP ++ ((255 : ℤ) :: u.filter wmP)) := by
    simp [labelsConcat, List.append_assoc]
  rw [hassoc] at hz
  rw [hassoc]
  rcases List.mem_append.mp hz with hc | hrest
  · left
    have hp := (List.mem_filter.mp hc).2
    refine ⟨by rw [(band_masks z).1 hp]; rfl, ?_⟩
    rw [List.indexOf_append_of_mem hc]
    exact (List.indexOf_lt_length).mpr hc
  · have hnc : z ∉ u.filter cortP := by
      intro hmem
      have h1 := (List.mem_filter.mp hmem).2
      rw [cortP_iff] at h1
      rcases List.mem_append.mp hrest with hb | hb
      · have h2 := (List.mem_filter.mp hb).2
        rw [deepP_iff] at h2
        omega
      · rcases List.mem_cons.mp hb with hb | hb
        · omega
        · have h2 := (List.mem_filter.mp hb).2
          rw [wmP_iff] at h2
          omega
    rw [List.indexOf_append_of_not_mem hnc]
    rcases List.mem_append.mp hrest with hd | hrest2
    · right; left
      have hp := (List.mem_filter.mp hd).2
      refine ⟨by rw [(band_masks z).2.1 hp]; rfl, by omega, ?_⟩
      rw [List.indexOf_append_of_mem hd]
      have := (List.indexOf_lt_length).mpr hd
      omega
    · have hnd : z ∉ u.filter deepP := by
        intro hmem
        have h1 := (List.mem_filter.mp hmem).2
        rw [deepP_iff] at h1
        rcases List.mem_cons.mp hrest2 with hb | hb
        · omega
        · have h2 := (List.mem_filter.mp hb).2
          rw [wmP_iff] at h2
          omega
      rw [List.indexOf_append_of_not_mem hnd]
      rcases List.mem_cons.mp hrest2 with h255 | hw
      · right; right; left
        refine ⟨by rw [(band_masks z).2.2.1 h255]; rfl, ?_⟩
        rw [h255, List.indexOf_cons_self]
        omega
      · have hp := (List.mem_filter.mp hw).2
        have hne : z ≠ 255 := by
          have := (wmP_iff z).mp hp
          omega
        right; right; right
        refine ⟨by rw [(band_masks z).2.2.2 hp]; rfl, ?_⟩
        rw [List.indexOf_cons_ne _ (fun hh => hne hh.symm)]
        omega


theorem mem_labelsConcat_of_inBand (u : List ℤ) (x : ℤ) (hx : x ∈ u)
    (hb : inBand x = true) : x ∈ labelsConcat u := by
  rw [labelsConcat]
  by_cases hc : cortP x = true
  · simp only [List.mem_append, List.mem_filter]
    exact Or.inl (Or.inl (Or.inl ⟨hx, hc⟩))
  · by_cases hd : deepP x = true
    · simp only [List.mem_append, List.mem_filter]
      exact Or.inl (Or.inl (Or.inr ⟨hx, hd⟩))
    · by_cases h255 : x = 255
      · simp only [List.mem_append, List.mem_cons]
        exact Or.inl (Or.inr (Or.inl h255))
      · by_cases hw : wmP x = true
        · simp only [List.mem_append, List.mem_filter]
          exact Or.inr ⟨hx, hw⟩
        · rw [inBand, bandNum, if_neg (by simpa using hc),
            if_neg (by simpa using hd), if_neg h255,
            if_neg (by simpa using hw)] at hb
          exact absurd hb (by simp)

/-- Core ordering fact: when every positive label is in a band, the
display order lists the band numbers nondecreasingly. -/
theorem displayBandRanks_chain (seg : List ℤ)
    (h : ∀ l ∈ posLabels seg, inBand l = true) :
    List.Chain' (· ≤ ·) (displayBandRanks seg) := by
  have hLnd : (labelsConcat (npUnique (posLabels seg))).Nodup :=
    labelsConcat_nodup _ (npUnique_nodup _)
  have hnsl : (newsegm seg).length = (posLabels seg).length := by
    rw [newsegm, newsegmOfPos, List.length_map]
  have hordl : (orderOf seg).length = (posLabels seg).length := by
    rw [orderOf, orderOfPos, argsortNumpy_length, newsegmOfPos,
      List.length_map]
  have hmem : ∀ k, k < (orderOf seg).length →
      (orderOf seg).getD k 0 < (posLabels seg).length := by
    intro k hk
    have h1 : (orderOf seg).getD k 0 ∈ orderOf seg := by
      rw [List.getD_eq_getElem _ _ hk]
      exact List.getElem_mem hk
    have h2 := (orderOf_perm seg).mem_iff.mp h1
    exact List.mem_range.mp h2
  have hdb : displayBandRanks seg = (orderOf seg).map
      (fun i => (bandNum ((posLabels seg).getD i 0)).getD 4) := by
    rw [displayBandRanks, displayedLabels, List.map_map]
    rfl
  rw [hdb, List.chain'_iff_get]
  intro k hk
  simp only [List.length_map] at hk
  simp only [List.get_eq_getElem, List.getElem_map]
  -- the two consecutive display rows
  have hk1 : k < (orderOf seg).length := by omega
  have hk2 : k + 1 < (orderOf seg).length := by omega
  set i1 := (orderOf seg)[k] with hi1
  set i2 := (orderOf seg)[k + 1] with hi2
  have hgd1 : (orderOf seg).getD k 0 = i1 := List.getD_eq_getElem _ _ hk1
  have hgd2 : (orderOf seg).getD (k + 1) 0 = i2 :=
    List.getD_eq_getElem _ _ hk2
  have hb1 : i1 < (posLabels seg).length := by
    rw [← hgd1]; exact hmem k hk1
  have hb2 : i2 < (posLabels seg).length := by
    rw [← hgd2]; exact hmem (k + 1) hk2
  set x1 := (posLabels seg)[i1] with hx1
  set x2 := (posLabels seg)[i2] with hx2
  have hgx1 : (posLabels seg).getD i1 0 = x1 := List.getD_eq_getElem _ _ hb1
  have hgx2 : (posLabels seg).getD i2 0 = x2 := List.getD_eq_getElem _ _ hb2
  have hx1m : x1 ∈ posLabels seg := List.getElem_mem hb1
  have hx2m : x2 ∈ posLabels seg := List.getElem_mem hb2
  have hx1L : x1 ∈ labelsConcat (npUnique (posLabels seg)) :=
    mem_labelsConcat_of_inBand _ x1 ((mem_npUnique _ _).mpr hx1m)
      (h x1 hx1m)
  have hx2L : x2 ∈ labelsConcat (npUnique (posLabels seg)) :=
    mem_labelsConcat_of_inBand _ x2 ((mem_npUnique _ _).mpr hx2m)
      (h x2 hx2m)
  -- keys along the argsort output are sorted
  have hsort := argsortNumpy_sorted (newsegm seg) k (k + 1)
    (Nat.zero_le k) (by omega) (by omega)
  rw [keyAt, keyAt, lget, lget] at hsort
  have hoeq : (argsortNumpy (newsegm seg)) = orderOf seg := rfl
  rw [hoeq, hgd1, hgd2] at hsort
  -- translate keys to ranks of the two labels
  have hkey1 : (newsegm seg).getD i1 0 =
      rankIn (labelsConcat (npUnique (posLabels seg))) x1 := by
    rw [newsegm, newsegmOfPos, List.getD_eq_getElem _ _
      (by rw [List.length_map]; exact hb1), List.getElem_map]
  have hkey2 : (newsegm seg).getD i2 0 =
      rankIn (labelsConcat (npUnique (posLabels seg))) x2 := by
    rw [newsegm, newsegmOfPos, List.getD_eq_getElem _ _
      (by rw [List.length_map]; exact hb2), List.getElem_map]
  rw [hkey1, hkey2, rankIn_eq_indexOf _ hLnd x1 hx1L,
    rankIn_eq_indexOf _ hLnd x2 hx2L] at hsort
  rw [hgx1, hgx2]
  have hc1 := mem_labelsConcat_cases _ x1 hx1L
  have hc2 := mem_labelsConcat_cases _ x2 hx2L
  rcases hc1 with ⟨hba, hia⟩ | ⟨hba, hia⟩ | ⟨hba, hia⟩ | ⟨hba, hia⟩ <;>
    rcases hc2 with ⟨hbb, hib⟩ | ⟨hbb, hib⟩ | ⟨hbb, hib⟩ | ⟨hbb, hib⟩ <;>
    rw [hba, hbb] <;> omega


/-- C1, amended.  Voxels with out-of-band positive labels are NOT
excluded: the voxel-time matrix keeps one row per voxel with label > 0
whatever the label, and the produced order is a permutation of all
those row indices, so the displayed row count equals the total
positive-label voxel count. -/
theorem c1_rows_retained (func : List (List ℚ)) (seg : List ℤ)
    (h : seg.length = func.length) :
    (dataMatrix func seg).length = (posLabels seg).length ∧
    List.Perm (orderOf seg) (List.range (posLabels seg).length) :=
  ⟨dataMatrix_length func seg (by omega), orderOf_perm seg⟩

/-- C1, witness: the amended statement at the concrete two-voxel
segmentation [20, 5] whose label 20 is outside every band. -/
theorem c1_rows_retained_witness :
    (dataMatrix [[0], [0]] [20, 5]).length = (posLabels [20, 5]).length ∧
    List.Perm (orderOf [20, 5])
      (List.range (posLabels [20, 5]).length) :=
  c1_rows_retained [[0], [0]] [20, 5] rfl

/-- C4, amended.  The carpet-row reordering produces only a display
permutation: the produced index list is a permutation of the voxel row
indices 0..n-1 (n the labelled-voxel count), and every display position
reads an in-range original row - the underlying rows are not modified.
Equal-rank voxels are, however, not guaranteed to keep their original
relative order (see the counterexample). -/
theorem c4_display_permutation (seg : List ℤ) :
    List.Perm (orderOf seg) (List.range (posLabels seg).length) ∧
    ∀ j, j < (orderOf seg).length →
      (orderOf seg).getD j 0 < (posLabels seg).length := by
  refine ⟨orderOf_perm seg, ?_⟩
  intro j hj
  have h1 : (orderOf seg).getD j 0 ∈ orderOf seg := by
    rw [List.getD_eq_getElem _ _ hj]
    exact List.getElem_mem hj
  exact List.mem_range.mp ((orderOf_perm seg).mem_iff.mp h1)

/-- C3, confirmed.  For a segmentation whose positive labels all lie in
the four bands, the produced order is a permutation of the voxel row
indices and the band numbers of the displayed rows (0 cortical GM,
1 deep GM, 2 cerebellum, 3 WM/CSF) are nondecreasing from top to
bottom: each band occupies one contiguous block, and the blocks appear
in the fixed order cortical GM, deep GM, cerebellum, WM/CSF whatever
the numeric label values inside each band. -/
theorem c3_band_contiguity (seg : List ℤ)
    (h : ∀ l ∈ posLabels seg, inBand l = true) :
    List.Perm (orderOf seg) (List.range (posLabels seg).length) ∧
    List.Chain' (· ≤ ·) (displayBandRanks seg) :=
  ⟨orderOf_perm seg, displayBandRanks_chain seg h⟩

/-- C3, witness: the statement at a concrete six-voxel segmentation
with labels from all four bands in scrambled order. -/
theorem c3_band_contiguity_witness :
    List.Perm (orderOf [150, 5, 50, 255, 40, 0])
      (List.range (posLabels [150, 5, 50, 255, 40, 0]).length) ∧
    List.Chain' (· ≤ ·) (displayBandRanks [150, 5, 50, 255, 40, 0]) :=
  c3_band_contiguity [150, 5, 50, 255, 40, 0] (by decide)

end MriTools
